import Mathlib

/-! lpve: length-prefix value encoding.

A shallow embedding of `codec.go` (package `lpve`) and the properties of its
decoder.  Go panics (index out of range, slice bounds, explicit `panic`) are
modelled by `none`; `byte` and `uint64` arithmetic is arithmetic on `Nat` with
an explicit reduction modulo `2 ^ 8` and `2 ^ 64`.
-/

namespace Lpve

/-! ## Data model -/

/-- A Go `byte`. -/
abbrev Byte := Fin 256

/-- Go `type Value []byte`. -/
abbrev Value := List Byte

/-- Go `type Content [8]byte`: a list that always holds eight bytes. -/
abbrev Content := List Byte

/-- Go `type Codec struct { Length int }`. -/
structure Codec where
  Length : Int
deriving DecidableEq, Repr

def Hash128 : Codec := ⟨16⟩

def Hash256 : Codec := ⟨32⟩

def Hash512 : Codec := ⟨64⟩

def MaxLength : Nat := 0x7FFFFFFFFFFFFFF

def TypeMask : Nat := 0xC0

def TypeNil : Nat := 0x00

def TypeInlineByte : Nat := 0x40

def TypeInlineMultibyte : Nat := 0x80

def TypeReference : Nat := 0xC0

def InlineMask : Nat := 0x3F

def ReferencePrefixMask : Nat := 0x38

def ReferenceCarryoverMask : Nat := 0x07

def offset1 : Nat := 0x000000000000008 + 64 + 1

def offset2 : Nat := 0x000000000000808 + 64 + 1

def offset3 : Nat := 0x000000000080808 + 64 + 1

def offset4 : Nat := 0x000000008080808 + 64 + 1

def offset5 : Nat := 0x000000808080808 + 64 + 1

def offset6 : Nat := 0x000080808080808 + 64 + 1

def offset7 : Nat := 0x008080808080808 + 64 + 1

/-! ## Machine arithmetic -/

/-- Truncation to a Go `byte`. -/
def u8 (x : Nat) : Nat := x % 2 ^ 8

/-- Truncation to a Go `uint64`. -/
def u64 (x : Nat) : Nat := x % 2 ^ 64

/-- The zero value of `Content`. -/
def zeroContent : Content := List.replicate 8 0

/-- The index expression `b[i]` converted by `uint64(...)`; `none` is the
out-of-range panic. -/
def at64 (b : List Byte) (i : Nat) : Option Nat := (b[i]?).map Fin.val

/-! ## `Codec.DecodeSlice` -/

/-- The inner `switch length` of the `TypeInlineMultibyte` case: the tuple
assignments for lengths 1 to 7, nothing for any other length. -/
def inlineMultibyteContent (length : Nat) (b : List Byte) (content : Content) :
    Option Content :=
  match length with
  | 1 => do
    let x1 ← b[1]?
    some (content.set 0 x1)
  | 2 => do
    let x1 ← b[1]?
    let x2 ← b[2]?
    some ((content.set 0 x1).set 1 x2)
  | 3 => do
    let x1 ← b[1]?
    let x2 ← b[2]?
    let x3 ← b[3]?
    some (((content.set 0 x1).set 1 x2).set 2 x3)
  | 4 => do
    let x1 ← b[1]?
    let x2 ← b[2]?
    let x3 ← b[3]?
    let x4 ← b[4]?
    some ((((content.set 0 x1).set 1 x2).set 2 x3).set 3 x4)
  | 5 => do
    let x1 ← b[1]?
    let x2 ← b[2]?
    let x3 ← b[3]?
    let x4 ← b[4]?
    let x5 ← b[5]?
    some (((((content.set 0 x1).set 1 x2).set 2 x3).set 3 x4).set 4 x5)
  | 6 => do
    let x1 ← b[1]?
    let x2 ← b[2]?
    let x3 ← b[3]?
    let x4 ← b[4]?
    let x5 ← b[5]?
    let x6 ← b[6]?
    some ((((((content.set 0 x1).set 1 x2).set 2 x3).set 3 x4).set 4 x5).set 5 x6)
  | 7 => do
    let x1 ← b[1]?
    let x2 ← b[2]?
    let x3 ← b[3]?
    let x4 ← b[4]?
    let x5 ← b[5]?
    let x6 ← b[6]?
    let x7 ← b[7]?
    some (((((((content.set 0 x1).set 1 x2).set 2 x3).set 3 x4).set 4 x5).set 5 x6).set 6 x7)
  | _ => some content

/-- The `switch count` of the reference case.  `length` enters as the
carryover; in Go `<<` binds tighter than `|` and `+`, which share one
precedence level and associate to the left, so the offset is added last. -/
def referenceLength (count length : Nat) (b : List Byte) : Option Nat :=
  match count with
  | 0 => some length
  | 1 => do
    let b1 ← at64 b 1
    some (u64 ((u64 (length <<< 8) ||| b1) + offset1))
  | 2 => do
    let b1 ← at64 b 1
    let b2 ← at64 b 2
    some (u64 ((u64 (length <<< 16) ||| u64 (b1 <<< 8) ||| b2) + offset2))
  | 3 => do
    let b1 ← at64 b 1
    let b2 ← at64 b 2
    let b3 ← at64 b 3
    some (u64 ((u64 (length <<< 24) ||| u64 (b1 <<< 16) ||| u64 (b2 <<< 8) ||| b3) + offset3))
  | 4 => do
    let b1 ← at64 b 1
    let b2 ← at64 b 2
    let b3 ← at64 b 3
    let b4 ← at64 b 4
    some (u64 ((u64 (length <<< 32) ||| u64 (b1 <<< 24) ||| u64 (b2 <<< 16) ||| u64 (b3 <<< 8)
      ||| b4) + offset4))
  | 5 => do
    let b1 ← at64 b 1
    let b2 ← at64 b 2
    let b3 ← at64 b 3
    let b4 ← at64 b 4
    let b5 ← at64 b 5
    some (u64 ((u64 (length <<< 40) ||| u64 (b1 <<< 32) ||| u64 (b2 <<< 24) ||| u64 (b3 <<< 16)
      ||| u64 (b4 <<< 8) ||| b5) + offset5))
  | 6 => do
    let b1 ← at64 b 1
    let b2 ← at64 b 2
    let b3 ← at64 b 3
    let b4 ← at64 b 4
    let b5 ← at64 b 5
    let b6 ← at64 b 6
    some (u64 ((u64 (length <<< 48) ||| u64 (b1 <<< 40) ||| u64 (b2 <<< 32) ||| u64 (b3 <<< 24)
      ||| u64 (b4 <<< 16) ||| u64 (b5 <<< 8) ||| b6) + offset6))
  | 7 => do
    let b1 ← at64 b 1
    let b2 ← at64 b 2
    let b3 ← at64 b 3
    let b4 ← at64 b 4
    let b5 ← at64 b 5
    let b6 ← at64 b 6
    let b7 ← at64 b 7
    some (u64 ((u64 (length <<< 56) ||| u64 (b1 <<< 48) ||| u64 (b2 <<< 40) ||| u64 (b3 <<< 32)
      ||| u64 (b4 <<< 24) ||| u64 (b5 <<< 8) ||| u64 (b6 <<< 8) ||| b7) + offset7))
  | _ => some length

/-- The loop `for i := 0; i < c.Length; i++ { content[i] = b[i] }`, with the
number of iterations still to run as first argument.  Writing `content[i]`
with `i >= 8` and reading `b[i]` past the end both panic. -/
def copyLoop (b : List Byte) : Nat → Nat → Content → Option Content
  | 0, _, content => some content
  | n + 1, i, content =>
    if i < 8 then
      match b[i]? with
      | some x => copyLoop b n (i + 1) (content.set i x)
      | none => none
    else none

/-- `func (c Codec) DecodeSlice(b []byte) (length uint64, content Content)`. -/
def DecodeSlice (c : Codec) (b : List Byte) : Option (Nat × Content) := do
  let header ← at64 b 0
  if header &&& TypeMask = TypeNil then
    some (0, zeroContent)
  else if header &&& TypeMask = TypeInlineByte then
    some (1, zeroContent.set 0 (Fin.ofNat (header &&& InlineMask)))
  else if header &&& TypeMask = TypeInlineMultibyte then do
    let length := u8 ((header &&& InlineMask) + 1)
    let content ← inlineMultibyteContent length b zeroContent
    some (length, content)
  else do
    let count := (header &&& ReferencePrefixMask) >>> 3
    let length ← referenceLength count (header &&& ReferenceCarryoverMask) b
    if b.length < u8 (1 + count) then none
    else
      let b := b.drop (u8 (1 + count))
      if (b.length : Int) < c.Length then none
      else do
        let content ← copyLoop b c.Length.toNat 0 zeroContent
        some (length, content)

/-! ## `Value.Len` -/

/-- The loop `for i := uint64(0); i < d; i++ { length |= uint64(v[i]) << 8 * i }`
with the number of iterations still to run as first argument.  In Go `<<` and
`*` share one precedence level and associate to the left. -/
def lenLoop (v : Value) : Nat → Nat → Nat → Option Nat
  | 0, _, length => some length
  | n + 1, i, length =>
    match at64 v i with
    | some x => lenLoop v n (i + 1) (length ||| u64 (u64 (x <<< 8) * i))
    | none => none

/-- `func (v Value) Len() uint64`. -/
def Len (v : Value) : Option Nat := do
  let h ← at64 v 0
  if h &&& TypeMask = TypeNil then
    some 0
  else if h &&& TypeMask = TypeInlineByte then
    some 1
  else if h &&& TypeMask = TypeInlineMultibyte then
    some (h &&& InlineMask)
  else if h &&& TypeMask = TypeReference then
    let d := (h &&& ReferencePrefixMask) >>> 3
    let j := h &&& ReferenceCarryoverMask
    let length := u64 (u64 (64 + u64 (1 <<< u64 (8 * d))) + d)
    let length := length ||| u64 (j <<< u64 (8 * d))
    lenLoop v d 0 length
  else
    some 0

/-! ## `Value.Inline` -/

/-- `func (v Value) Inline() bool`, whose body is `return false`. -/
def Inline (_v : Value) : Bool := false

/-! ## Specification-level definitions -/

/-- The reference-tier offset for a prefix count: 65 for count 0 (the inline
ceiling plus one, as in the length table of doc.go), the constants `offset1`
to `offset7` for the counts 1 to 7. -/
def offset : Nat → Nat
  | 0 => 65
  | 1 => offset1
  | 2 => offset2
  | 3 => offset3
  | 4 => offset4
  | 5 => offset5
  | 6 => offset6
  | _ => offset7

/-- Big-endian value of a byte string. -/
def bigEndian (bs : List Byte) : Nat := bs.foldl (fun acc x => acc * 256 + x.val) 0

/-- A byte string placed at the start of a zeroed `Content`. -/
def padContent (bs : List Byte) : Content := bs ++ List.replicate (8 - bs.length) 0

/-- The content carries `bytes`: entry `i` of the content is byte `i` of
`bytes`, for every position the eight-byte content has room for. -/
def Carries (content : Content) (bytes : List Byte) : Prop :=
  content.take bytes.length = bytes.take 8

/-- Bytewise (big-endian) lexicographic order on byte strings; a proper prefix
sorts first. -/
def lexLt : List Byte → List Byte → Bool
  | [], [] => false
  | [], _ :: _ => true
  | _ :: _, [] => false
  | x :: xs, y :: ys => decide (x.val < y.val) || (decide (x.val = y.val) && lexLt xs ys)

/-- The size in bytes of the layout that the lead byte `h` declares: one byte
for type bits 00 and 01, `1 + ((h & 0x3F) + 1)` for type bits 10 and
`1 + count + Length` for type bits 11. -/
def layoutSize (c : Codec) (h : Nat) : Int :=
  if h &&& TypeMask = TypeInlineMultibyte then
    ((1 + ((h &&& InlineMask) + 1) : Nat) : Int)
  else if h &&& TypeMask = TypeReference then
    ((1 + (h &&& ReferencePrefixMask) >>> 3 : Nat) : Int) + c.Length
  else 1

/-- The buffer is empty or shorter than the layout its lead byte declares. -/
def Truncated (c : Codec) (b : List Byte) : Prop :=
  b = [] ∨ ∃ h, at64 b 0 = some h ∧ (b.length : Int) < layoutSize c h

/-- The prefix count announced by the lead byte of `b`. -/
def countOf (b : List Byte) : Nat := ((b.headD 0).val &&& ReferencePrefixMask) >>> 3

/-- The header of a reference value: the lead byte and its prefix bytes. -/
def headerOf (b : List Byte) : List Byte := b.take (1 + countOf b)

/-- Reference-tier buffers whose prefix count lies in 1..6. -/
def Count16 (b : List Byte) : Prop :=
  ∃ h, at64 b 0 = some h ∧ h &&& TypeMask = TypeReference
    ∧ 1 ≤ (h &&& ReferencePrefixMask) >>> 3 ∧ (h &&& ReferencePrefixMask) >>> 3 ≤ 6

/-- On the reference-tier buffers with prefix count 1..6 that codec `c` decodes:
the headers compare as the decoded lengths do, the decoded lengths lie in
`offset1 .. offset7 - 1`, every such length is decoded from some buffer, and two
buffers that decode to the same length have the same header. -/
def HeaderOrderIso (c : Codec) : Prop :=
  (∀ b b' l l' content content', Count16 b → Count16 b' →
      DecodeSlice c b = some (l, content) → DecodeSlice c b' = some (l', content') →
      (lexLt (headerOf b) (headerOf b') = true ↔ l < l'))
    ∧ (∀ b l content, Count16 b → DecodeSlice c b = some (l, content) →
        offset1 ≤ l ∧ l < offset7)
    ∧ (∀ L, offset1 ≤ L → L < offset7 →
        ∃ b content, Count16 b ∧ DecodeSlice c b = some (L, content))
    ∧ (∀ b b' l content content', Count16 b → Count16 b' →
        DecodeSlice c b = some (l, content) → DecodeSlice c b' = some (l, content') →
        headerOf b = headerOf b')

/-- Modelled from the spec: the prefix count of the Tier Classifier (§4.1), the
smallest count whose cumulative range holds `L`; `encode` in codec.go is an
unimplemented stub.  The ranges are those of the source's offset constants. -/
def prefixCount (L : Nat) : Nat :=
  if L < offset1 then 0
  else if L < offset2 then 1
  else if L < offset3 then 2
  else if L < offset4 then 3
  else if L < offset5 then 4
  else if L < offset6 then 5
  else if L < offset7 then 6
  else 7

/-- Modelled from the spec: the `count` big-endian length-prefix bytes of the
Encoder (§4.3), most significant first; `encode` in codec.go is an
unimplemented stub. -/
def bigEndianBytes : Nat → Nat → List Byte
  | 0, _ => []
  | c + 1, x => Fin.ofNat (x >>> (8 * c)) :: bigEndianBytes c x

/-- Modelled from the spec: the Encoder (§4.3) producing the wire format of §6
(Nil `00000000`; InlineByte `01VVVVVV`; InlineMultibyte `10LLLLLL` and the raw
bytes; Reference `11CCCJJJ`, `count` big-endian prefix bytes and the digest);
`encode` in codec.go is an unimplemented stub. -/
def wireEncode (L : Nat) (C : List Byte) : List Byte :=
  if L = 0 then
    [Fin.ofNat TypeNil]
  else if L = 1 ∧ (C.headD 0).val ≤ 63 then
    [Fin.ofNat (TypeInlineByte ||| (C.headD 0).val)]
  else if L ≤ 64 then
    Fin.ofNat (TypeInlineMultibyte ||| (L - 1)) :: C
  else
    let count := prefixCount L
    let raw := L - offset count
    Fin.ofNat (TypeReference ||| (count <<< 3) ||| (raw >>> (8 * count)))
      :: (bigEndianBytes count raw ++ C)

/-- The Encoder's precondition (§4.3): `L` is representable and the content is
`L` raw bytes for an inline length, `W` digest bytes for a referenced one. -/
def ValidInput (L : Nat) (C : List Byte) (W : Nat) : Prop :=
  L ≤ MaxLength ∧ (L ≤ 64 → C.length = L) ∧ (64 < L → C.length = W)

/-- Decoding the wire-format encoding of `(L, C)` with `Codec{W}` returns the
length `L` and a content carrying `C`. -/
def RoundTrips (L : Nat) (C : List Byte) (W : Nat) : Prop :=
  ∃ content, DecodeSlice ⟨(W : Int)⟩ (wireEncode L C) = some (L, content) ∧ Carries content C

end Lpve

namespace Lpve

/-! ## Machine arithmetic lemmas -/

theorem u64_of_lt {x : Nat} (h : x < 2 ^ 64) : u64 x = x := Nat.mod_eq_of_lt h

theorem u8_of_lt {x : Nat} (h : x < 2 ^ 8) : u8 x = x := Nat.mod_eq_of_lt h

theorem lor_eq_add (n x b : Nat) (hx : 2 ^ n ∣ x) (hb : b < 2 ^ n) : x ||| b = x + b := by
  obtain ⟨a, rfl⟩ := hx
  exact (Nat.mul_add_lt_is_or hb a).symm

theorem pack1 (j x1 : Nat) (hj : j < 8) (h1 : x1 < 256) :
    u64 ((u64 (j <<< 8) ||| x1) + offset1) = offset1 + (j * 256 ^ 1 + x1) := by
  simp only [Nat.shiftLeft_eq, offset1]
  norm_num
  rw [u64_of_lt (x := j * 256) (by omega)]
  rw [lor_eq_add 8 (j * 256) x1 (by omega) (by omega)]
  rw [u64_of_lt (by omega)]
  omega

theorem pack2 (j x1 x2 : Nat) (hj : j < 8) (h1 : x1 < 256) (h2 : x2 < 256) :
    u64 ((u64 (j <<< 16) ||| u64 (x1 <<< 8) ||| x2) + offset2)
      = offset2 + (j * 256 ^ 2 + (x1 * 256 + x2)) := by
  simp only [Nat.shiftLeft_eq, offset2]
  norm_num
  rw [u64_of_lt (x := j * 65536) (by omega), u64_of_lt (x := x1 * 256) (by omega)]
  rw [lor_eq_add 16 (j * 65536) (x1 * 256) (by omega) (by omega)]
  rw [lor_eq_add 8 (j * 65536 + x1 * 256) x2 (by omega) (by omega)]
  rw [u64_of_lt (by omega)]
  omega

theorem pack3 (j x1 x2 x3 : Nat) (hj : j < 8) (h1 : x1 < 256) (h2 : x2 < 256)
    (h3 : x3 < 256) :
    u64 ((u64 (j <<< 24) ||| u64 (x1 <<< 16) ||| u64 (x2 <<< 8) ||| x3) + offset3)
      = offset3 + (j * 256 ^ 3 + ((x1 * 256 + x2) * 256 + x3)) := by
  simp only [Nat.shiftLeft_eq, offset3]
  norm_num
  rw [u64_of_lt (x := j * 16777216) (by omega), u64_of_lt (x := x1 * 65536) (by omega),
    u64_of_lt (x := x2 * 256) (by omega)]
  rw [lor_eq_add 24 (j * 16777216) (x1 * 65536) (by omega) (by omega)]
  rw [lor_eq_add 16 (j * 16777216 + x1 * 65536) (x2 * 256) (by omega) (by omega)]
  rw [lor_eq_add 8 (j * 16777216 + x1 * 65536 + x2 * 256) x3 (by omega) (by omega)]
  rw [u64_of_lt (by omega)]
  omega

theorem pack4 (j x1 x2 x3 x4 : Nat) (hj : j < 8) (h1 : x1 < 256) (h2 : x2 < 256)
    (h3 : x3 < 256) (h4 : x4 < 256) :
    u64 ((u64 (j <<< 32) ||| u64 (x1 <<< 24) ||| u64 (x2 <<< 16) ||| u64 (x3 <<< 8) ||| x4)
        + offset4)
      = offset4 + (j * 256 ^ 4 + (((x1 * 256 + x2) * 256 + x3) * 256 + x4)) := by
  simp only [Nat.shiftLeft_eq, offset4]
  norm_num
  rw [u64_of_lt (x := j * 4294967296) (by omega), u64_of_lt (x := x1 * 16777216) (by omega),
    u64_of_lt (x := x2 * 65536) (by omega), u64_of_lt (x := x3 * 256) (by omega)]
  rw [lor_eq_add 32 (j * 4294967296) (x1 * 16777216) (by omega) (by omega)]
  rw [lor_eq_add 24 (j * 4294967296 + x1 * 16777216) (x2 * 65536) (by omega) (by omega)]
  rw [lor_eq_add 16 (j * 4294967296 + x1 * 16777216 + x2 * 65536) (x3 * 256) (by omega)
    (by omega)]
  rw [lor_eq_add 8 (j * 4294967296 + x1 * 16777216 + x2 * 65536 + x3 * 256) x4 (by omega)
    (by omega)]
  rw [u64_of_lt (by omega)]
  omega

theorem pack5 (j x1 x2 x3 x4 x5 : Nat) (hj : j < 8) (h1 : x1 < 256) (h2 : x2 < 256) (h3 : x3 < 256) (h4 : x4 < 256) (h5 : x5 < 256) :
    u64 ((u64 (j <<< 40) ||| u64 (x1 <<< 32) ||| u64 (x2 <<< 24) ||| u64 (x3 <<< 16) ||| u64 (x4 <<< 8) ||| x5)
        + offset5)
      = offset5 + (j * 256 ^ 5 + ((((x1 * 256 + x2) * 256 + x3) * 256 + x4) * 256 + x5)) := by
  simp only [Nat.shiftLeft_eq, offset5]
  norm_num
  rw [u64_of_lt (x := j * 1099511627776) (by omega),
    u64_of_lt (x := x1 * 4294967296) (by omega),
    u64_of_lt (x := x2 * 16777216) (by omega),
    u64_of_lt (x := x3 * 65536) (by omega),
    u64_of_lt (x := x4 * 256) (by omega)]
  rw [lor_eq_add 40 (j * 1099511627776) (x1 * 4294967296)
    (by omega) (by omega)]
  rw [lor_eq_add 32 (j * 1099511627776 + x1 * 4294967296) (x2 * 16777216)
    (by omega) (by omega)]
  rw [lor_eq_add 24 (j * 1099511627776 + x1 * 4294967296 + x2 * 16777216) (x3 * 65536)
    (by omega) (by omega)]
  rw [lor_eq_add 16 (j * 1099511627776 + x1 * 4294967296 + x2 * 16777216 + x3 * 65536) (x4 * 256)
    (by omega) (by omega)]
  rw [lor_eq_add 8 (j * 1099511627776 + x1 * 4294967296 + x2 * 16777216 + x3 * 65536 + x4 * 256) x5
    (by omega) (by omega)]
  rw [u64_of_lt (by omega)]
  omega

theorem pack6 (j x1 x2 x3 x4 x5 x6 : Nat) (hj : j < 8) (h1 : x1 < 256) (h2 : x2 < 256) (h3 : x3 < 256) (h4 : x4 < 256) (h5 : x5 < 256) (h6 : x6 < 256) :
    u64 ((u64 (j <<< 48) ||| u64 (x1 <<< 40) ||| u64 (x2 <<< 32) ||| u64 (x3 <<< 24) ||| u64 (x4 <<< 16) ||| u64 (x5 <<< 8) ||| x6)
        + offset6)
      = offset6 + (j * 256 ^ 6 + (((((x1 * 256 + x2) * 256 + x3) * 256 + x4) * 256 + x5) * 256 + x6)) := by
  simp only [Nat.shiftLeft_eq, offset6]
  norm_num
  rw [u64_of_lt (x := j * 281474976710656) (by omega),
    u64_of_lt (x := x1 * 1099511627776) (by omega),
    u64_of_lt (x := x2 * 4294967296) (by omega),
    u64_of_lt (x := x3 * 16777216) (by omega),
    u64_of_lt (x := x4 * 65536) (by omega),
    u64_of_lt (x := x5 * 256) (by omega)]
  rw [lor_eq_add 48 (j * 281474976710656) (x1 * 1099511627776)
    (by omega) (by omega)]
  rw [lor_eq_add 40 (j * 281474976710656 + x1 * 1099511627776) (x2 * 4294967296)
    (by omega) (by omega)]
  rw [lor_eq_add 32 (j * 281474976710656 + x1 * 1099511627776 + x2 * 4294967296) (x3 * 16777216)
    (by omega) (by omega)]
  rw [lor_eq_add 24 (j * 281474976710656 + x1 * 1099511627776 + x2 * 4294967296 + x3 * 16777216) (x4 * 65536)
    (by omega) (by omega)]
  rw [lor_eq_add 16 (j * 281474976710656 + x1 * 1099511627776 + x2 * 4294967296 + x3 * 16777216 + x4 * 65536) (x5 * 256)
    (by omega) (by omega)]
  rw [lor_eq_add 8 (j * 281474976710656 + x1 * 1099511627776 + x2 * 4294967296 + x3 * 16777216 + x4 * 65536 + x5 * 256) x6
    (by omega) (by omega)]
  rw [u64_of_lt (by omega)]
  omega

theorem or_lt_pow {a b n : Nat} (ha : a < 2 ^ n) (hb : b < 2 ^ n) : a ||| b < 2 ^ n :=
  Nat.or_lt_two_pow ha hb

theorem pack7_le (j x1 x2 x3 x4 x5 x6 x7 : Nat) (hj : j < 8) (h1 : x1 < 256) (h2 : x2 < 256)
    (h3 : x3 < 256) (h4 : x4 < 256) (h5 : x5 < 256) (h6 : x6 < 256) (h7 : x7 < 256) :
    u64 ((u64 (j <<< 56) ||| u64 (x1 <<< 48) ||| u64 (x2 <<< 40) ||| u64 (x3 <<< 32)
        ||| u64 (x4 <<< 24) ||| u64 (x5 <<< 8) ||| u64 (x6 <<< 8) ||| x7) + offset7)
      ≤ MaxLength + offset7 := by
  have e : MaxLength + 1 = 2 ^ 59 := by norm_num [MaxLength]
  have b0 : u64 (j <<< 56) < 2 ^ 59 := by
    rw [Nat.shiftLeft_eq, u64_of_lt (by omega)]; omega
  have b1 : u64 (x1 <<< 48) < 2 ^ 59 := by
    rw [Nat.shiftLeft_eq, u64_of_lt (by omega)]; omega
  have b2 : u64 (x2 <<< 40) < 2 ^ 59 := by
    rw [Nat.shiftLeft_eq, u64_of_lt (by omega)]; omega
  have b3 : u64 (x3 <<< 32) < 2 ^ 59 := by
    rw [Nat.shiftLeft_eq, u64_of_lt (by omega)]; omega
  have b4 : u64 (x4 <<< 24) < 2 ^ 59 := by
    rw [Nat.shiftLeft_eq, u64_of_lt (by omega)]; omega
  have b5 : u64 (x5 <<< 8) < 2 ^ 59 := by
    rw [Nat.shiftLeft_eq, u64_of_lt (by omega)]; omega
  have b6 : u64 (x6 <<< 8) < 2 ^ 59 := by
    rw [Nat.shiftLeft_eq, u64_of_lt (by omega)]; omega
  have b7 : x7 < 2 ^ 59 := by omega
  have hor := or_lt_pow (or_lt_pow (or_lt_pow (or_lt_pow (or_lt_pow (or_lt_pow
    (or_lt_pow b0 b1) b2) b3) b4) b5) b6) b7
  have hle : u64 ((u64 (j <<< 56) ||| u64 (x1 <<< 48) ||| u64 (x2 <<< 40) ||| u64 (x3 <<< 32)
        ||| u64 (x4 <<< 24) ||| u64 (x5 <<< 8) ||| u64 (x6 <<< 8) ||| x7) + offset7)
      ≤ (u64 (j <<< 56) ||| u64 (x1 <<< 48) ||| u64 (x2 <<< 40) ||| u64 (x3 <<< 32)
        ||| u64 (x4 <<< 24) ||| u64 (x5 <<< 8) ||| u64 (x6 <<< 8) ||| x7) + offset7 :=
    Nat.mod_le _ _
  omega

/-! ## Header bit fields -/

set_option maxRecDepth 100000 in
theorem header_cases : ∀ h : Fin 256,
    h.val &&& TypeMask = TypeNil ∨ h.val &&& TypeMask = TypeInlineByte
      ∨ h.val &&& TypeMask = TypeInlineMultibyte ∨ h.val &&& TypeMask = TypeReference := by
  decide

set_option maxRecDepth 100000 in
theorem header_reference : ∀ h : Fin 256, h.val &&& TypeMask = TypeReference →
    (h.val &&& ReferencePrefixMask) >>> 3 ≤ 7 ∧ h.val &&& ReferenceCarryoverMask ≤ 7
      ∧ h.val = 0xC0 + 8 * ((h.val &&& ReferencePrefixMask) >>> 3)
          + (h.val &&& ReferenceCarryoverMask) := by
  decide

set_option maxRecDepth 100000 in
theorem header_inline : ∀ h : Fin 256, h.val &&& TypeMask = TypeInlineMultibyte →
    1 ≤ u8 ((h.val &&& InlineMask) + 1) ∧ u8 ((h.val &&& InlineMask) + 1) ≤ 64
      ∧ h.val = 0x80 + (u8 ((h.val &&& InlineMask) + 1) - 1) := by
  decide

set_option maxRecDepth 100000 in
theorem header_build : ∀ k : Fin 8, ∀ j : Fin 8,
    (0xC0 ||| (k.val <<< 3) ||| j.val) = 0xC0 + 8 * k.val + j.val := by
  decide

set_option maxRecDepth 100000 in
theorem header_fields : ∀ k : Fin 8, ∀ j : Fin 8,
    (0xC0 + 8 * k.val + j.val) &&& TypeMask = TypeReference
      ∧ ((0xC0 + 8 * k.val + j.val) &&& ReferencePrefixMask) >>> 3 = k.val
      ∧ (0xC0 + 8 * k.val + j.val) &&& ReferenceCarryoverMask = j.val := by
  decide

/-! ## The copy loop -/

theorem set_take_pad (d : List Byte) (i : Nat) (hi : i < 8) (hd : i < d.length) :
    (d.take i ++ List.replicate (8 - i) (0 : Byte)).set i (d.get ⟨i, hd⟩)
      = d.take (i + 1) ++ List.replicate (8 - (i + 1)) 0 := by
  apply List.ext_getElem
  · simp; omega
  · intro n h1 h2
    simp only [List.getElem_set, List.getElem_append, List.length_take, List.getElem_take,
      List.getElem_replicate]
    have : min i d.length = i := by omega
    have : min (i+1) d.length = i + 1 := by omega
    split_ifs <;> first | rfl | omega | simp_all

theorem copyLoop_spec (d : List Byte) : ∀ n i, i + n ≤ 8 → i + n ≤ d.length →
    copyLoop d n i (d.take i ++ List.replicate (8 - i) 0)
      = some (d.take (i + n) ++ List.replicate (8 - (i + n)) 0) := by
  intro n
  induction n with
  | zero => intro i _ _; simp [copyLoop]
  | succ n ih =>
    intro i h8 hd
    have hi : i < 8 := by omega
    have hdi : i < d.length := by omega
    rw [copyLoop, if_pos hi, List.getElem?_eq_getElem hdi]
    simp only
    have := set_take_pad d i hi hdi
    simp only [List.get_eq_getElem] at this
    have e : i + 1 + n = i + (n + 1) := by omega
    rw [this, ih (i + 1) (by omega) (by omega), e]

theorem copyLoop_eq (d : List Byte) (n : Nat) (h8 : n ≤ 8) (hd : n ≤ d.length) :
    copyLoop d n 0 zeroContent = some (padContent (d.take n)) := by
  have := copyLoop_spec d n 0 (by omega) (by omega)
  simp only [List.take_zero, List.nil_append, Nat.sub_zero, Nat.zero_add] at this
  rw [zeroContent, this, padContent, List.length_take, Nat.min_eq_left hd]

/-! ## The reference length switch -/

theorem referenceLength_cons1 (j : Nat) (hj : j < 8) (h x1 : Byte) (rest : List Byte) :
    referenceLength 1 j (h :: x1 :: rest) = some (offset 1 + (j * 256 ^ 1 + bigEndian [x1])) := by
  simp [referenceLength, at64, offset, bigEndian, pack1 j _ hj x1.isLt]

theorem referenceLength_cons2 (j : Nat) (hj : j < 8) (h x1 x2 : Byte) (rest : List Byte) :
    referenceLength 2 j (h :: x1 :: x2 :: rest)
      = some (offset 2 + (j * 256 ^ 2 + bigEndian [x1, x2])) := by
  simp [referenceLength, at64, offset, bigEndian, pack2 j _ _ hj x1.isLt x2.isLt]

theorem referenceLength_cons3 (j : Nat) (hj : j < 8) (h x1 x2 x3 : Byte) (rest : List Byte) :
    referenceLength 3 j (h :: x1 :: x2 :: x3 :: rest)
      = some (offset 3 + (j * 256 ^ 3 + bigEndian [x1, x2, x3])) := by
  simp [referenceLength, at64, offset, bigEndian, pack3 j _ _ _ hj x1.isLt x2.isLt x3.isLt]

theorem referenceLength_cons4 (j : Nat) (hj : j < 8) (h x1 x2 x3 x4 : Byte)
    (rest : List Byte) :
    referenceLength 4 j (h :: x1 :: x2 :: x3 :: x4 :: rest)
      = some (offset 4 + (j * 256 ^ 4 + bigEndian [x1, x2, x3, x4])) := by
  simp [referenceLength, at64, offset, bigEndian,
    pack4 j _ _ _ _ hj x1.isLt x2.isLt x3.isLt x4.isLt]

theorem referenceLength_cons5 (j : Nat) (hj : j < 8) (h x1 x2 x3 x4 x5 : Byte)
    (rest : List Byte) :
    referenceLength 5 j (h :: x1 :: x2 :: x3 :: x4 :: x5 :: rest)
      = some (offset 5 + (j * 256 ^ 5 + bigEndian [x1, x2, x3, x4, x5])) := by
  simp [referenceLength, at64, offset, bigEndian,
    pack5 j _ _ _ _ _ hj x1.isLt x2.isLt x3.isLt x4.isLt x5.isLt]

theorem referenceLength_cons6 (j : Nat) (hj : j < 8) (h x1 x2 x3 x4 x5 x6 : Byte)
    (rest : List Byte) :
    referenceLength 6 j (h :: x1 :: x2 :: x3 :: x4 :: x5 :: x6 :: rest)
      = some (offset 6 + (j * 256 ^ 6 + bigEndian [x1, x2, x3, x4, x5, x6])) := by
  simp [referenceLength, at64, offset, bigEndian,
    pack6 j _ _ _ _ _ _ hj x1.isLt x2.isLt x3.isLt x4.isLt x5.isLt x6.isLt]

theorem referenceLength_eq (k j : Nat) (b : List Byte) (hk1 : 1 ≤ k) (hk6 : k ≤ 6)
    (hj : j < 8) (hlen : k + 1 ≤ b.length) :
    referenceLength k j b
      = some (offset k + (j * 256 ^ k + bigEndian ((b.drop 1).take k))) := by
  interval_cases k
  · rcases b with _ | ⟨h, _ | ⟨x1, rest⟩⟩ <;> simp at hlen
    simpa using referenceLength_cons1 j hj h x1 rest
  · rcases b with _ | ⟨h, _ | ⟨x1, _ | ⟨x2, rest⟩⟩⟩ <;> simp at hlen
    simpa using referenceLength_cons2 j hj h x1 x2 rest
  · rcases b with _ | ⟨h, _ | ⟨x1, _ | ⟨x2, _ | ⟨x3, rest⟩⟩⟩⟩ <;> simp at hlen
    simpa using referenceLength_cons3 j hj h x1 x2 x3 rest
  · rcases b with _ | ⟨h, _ | ⟨x1, _ | ⟨x2, _ | ⟨x3, _ | ⟨x4, rest⟩⟩⟩⟩⟩ <;> simp at hlen
    simpa using referenceLength_cons4 j hj h x1 x2 x3 x4 rest
  · rcases b with _ | ⟨h, _ | ⟨x1, _ | ⟨x2, _ | ⟨x3, _ | ⟨x4, _ | ⟨x5, rest⟩⟩⟩⟩⟩⟩ <;>
      simp at hlen
    simpa using referenceLength_cons5 j hj h x1 x2 x3 x4 x5 rest
  · rcases b with _ | ⟨h, _ | ⟨x1, _ | ⟨x2, _ | ⟨x3, _ | ⟨x4, _ | ⟨x5, _ | ⟨x6, rest⟩⟩⟩⟩⟩⟩⟩ <;>
      simp at hlen
    simpa using referenceLength_cons6 j hj h x1 x2 x3 x4 x5 x6 rest

theorem at64_isSome (b : List Byte) (i : Nat) (h : i < b.length) :
    at64 b i = some (b.get ⟨i, h⟩).val := by
  simp [at64, List.getElem?_eq_getElem h]

theorem at64_lt {b : List Byte} {i x : Nat} (h : at64 b i = some x) : x < 256 := by
  unfold at64 at h
  cases hb : b[i]? with
  | none => simp [hb] at h
  | some y => simp [hb] at h; omega

theorem at64_none (b : List Byte) (i : Nat) (h : b.length ≤ i) : at64 b i = none := by
  simp [at64, List.getElem?_eq_none h]

/-- Every prefix count that reads only bytes the buffer holds yields a length. -/
theorem referenceLength_isSome (k j : Nat) (b : List Byte) (hk7 : k ≤ 7)
    (hlen : k + 1 ≤ b.length) : ∃ l, referenceLength k j b = some l := by
  rcases b with _ | ⟨h, _ | ⟨x1, _ | ⟨x2, _ | ⟨x3, _ | ⟨x4, _ | ⟨x5, _ | ⟨x6, _ | ⟨x7, rest⟩⟩⟩⟩⟩⟩⟩⟩ <;>
    simp only [List.length_cons, List.length_nil] at hlen <;>
    interval_cases k <;>
    first
      | omega
      | exact ⟨_, rfl⟩
      | simp [referenceLength, at64]

/-- A prefix count that reads past the end of the buffer panics. -/
theorem referenceLength_none (k j : Nat) (b : List Byte) (hk1 : 1 ≤ k) (hk7 : k ≤ 7)
    (hlen : b.length < k + 1) : referenceLength k j b = none := by
  rcases b with _ | ⟨h, _ | ⟨x1, _ | ⟨x2, _ | ⟨x3, _ | ⟨x4, _ | ⟨x5, _ | ⟨x6, _ | ⟨x7, rest⟩⟩⟩⟩⟩⟩⟩⟩ <;>
    simp only [List.length_cons, List.length_nil] at hlen <;>
    interval_cases k <;>
    first
      | omega
      | rfl

/-! ## Unfolding `DecodeSlice` by tier -/

theorem DecodeSlice_nil (c : Codec) : DecodeSlice c [] = none := rfl

theorem DecodeSlice_reference (c : Codec) (h : Byte) (t : List Byte)
    (ht : h.val &&& TypeMask = TypeReference) :
    DecodeSlice c (h :: t)
      = (referenceLength ((h.val &&& ReferencePrefixMask) >>> 3)
          (h.val &&& ReferenceCarryoverMask) (h :: t)).bind fun length =>
        if (h :: t).length < 1 + (h.val &&& ReferencePrefixMask) >>> 3 then none
        else if (((h :: t).drop (1 + (h.val &&& ReferencePrefixMask) >>> 3)).length : Int)
            < c.Length then none
        else (copyLoop ((h :: t).drop (1 + (h.val &&& ReferencePrefixMask) >>> 3))
            c.Length.toNat 0 zeroContent).bind fun content => some (length, content) := by
  have hk := (header_reference h ht).1
  have hu : u8 (1 + (h.val &&& ReferencePrefixMask) >>> 3)
      = 1 + (h.val &&& ReferencePrefixMask) >>> 3 := u8_of_lt (by omega)
  have h1 : ¬ h.val &&& TypeMask = TypeNil := by rw [ht]; decide
  have h2 : ¬ h.val &&& TypeMask = TypeInlineByte := by rw [ht]; decide
  have h3 : ¬ h.val &&& TypeMask = TypeInlineMultibyte := by rw [ht]; decide
  simp only [DecodeSlice, at64, List.getElem?_cons_zero, Option.map_some', Option.bind_eq_bind,
    Option.some_bind, if_neg h1, if_neg h2, if_neg h3, hu]

theorem DecodeSlice_reference_ok (c : Codec) (h : Byte) (t : List Byte)
    (ht : h.val &&& TypeMask = TypeReference) (l : Nat)
    (hl : referenceLength ((h.val &&& ReferencePrefixMask) >>> 3)
      (h.val &&& ReferenceCarryoverMask) (h :: t) = some l)
    (hW0 : 0 ≤ c.Length) (hW8 : c.Length ≤ 8)
    (hlen : 1 + (h.val &&& ReferencePrefixMask) >>> 3 + c.Length.toNat ≤ (h :: t).length) :
    DecodeSlice c (h :: t)
      = some (l, padContent (((h :: t).drop (1 + (h.val &&& ReferencePrefixMask) >>> 3)).take
          c.Length.toNat)) := by
  rw [DecodeSlice_reference c h t ht, hl, Option.some_bind]
  have hd : (((h :: t).drop (1 + (h.val &&& ReferencePrefixMask) >>> 3)).length)
      = (h :: t).length - (1 + (h.val &&& ReferencePrefixMask) >>> 3) := List.length_drop _ _
  rw [if_neg (by omega), if_neg (by omega),
    copyLoop_eq _ _ (by omega) (by omega), Option.some_bind]

theorem DecodeSlice_inline (c : Codec) (h : Byte) (t : List Byte)
    (ht : h.val &&& TypeMask = TypeInlineMultibyte) :
    DecodeSlice c (h :: t)
      = (inlineMultibyteContent (u8 ((h.val &&& InlineMask) + 1)) (h :: t) zeroContent).bind
          fun content => some (u8 ((h.val &&& InlineMask) + 1), content) := by
  have h1 : ¬ h.val &&& TypeMask = TypeNil := by rw [ht]; decide
  have h2 : ¬ h.val &&& TypeMask = TypeInlineByte := by rw [ht]; decide
  simp only [DecodeSlice, at64, List.getElem?_cons_zero, Option.map_some', Option.bind_eq_bind,
    Option.some_bind, if_neg h1, if_neg h2, if_pos ht]

theorem DecodeSlice_nilType (c : Codec) (h : Byte) (t : List Byte)
    (ht : h.val &&& TypeMask = TypeNil) : DecodeSlice c (h :: t) = some (0, zeroContent) := by
  simp only [DecodeSlice, at64, List.getElem?_cons_zero, Option.map_some', Option.bind_eq_bind,
    Option.some_bind, if_pos ht]

theorem DecodeSlice_inlineByte (c : Codec) (h : Byte) (t : List Byte)
    (ht : h.val &&& TypeMask = TypeInlineByte) :
    DecodeSlice c (h :: t)
      = some (1, zeroContent.set 0 (Fin.ofNat (h.val &&& InlineMask))) := by
  have h1 : ¬ h.val &&& TypeMask = TypeNil := by rw [ht]; decide
  simp only [DecodeSlice, at64, List.getElem?_cons_zero, Option.map_some', Option.bind_eq_bind,
    Option.some_bind, if_neg h1, if_pos ht]

set_option maxRecDepth 100000 in
theorem inline_header_fields : ∀ m : Fin 64,
    (0x80 ||| m.val) &&& TypeMask = TypeInlineMultibyte
      ∧ u8 (((0x80 ||| m.val) &&& InlineMask) + 1) = m.val + 1 := by
  decide

theorem inlineMultibyteContent_eq (n : Nat) (h : Byte) (t : List Byte) (hn1 : 1 ≤ n)
    (hn7 : n ≤ 7) (hlen : n ≤ t.length) :
    inlineMultibyteContent n (h :: t) zeroContent = some (padContent (t.take n)) := by
  rcases t with _ | ⟨x1, _ | ⟨x2, _ | ⟨x3, _ | ⟨x4, _ | ⟨x5, _ | ⟨x6, _ | ⟨x7, rest⟩⟩⟩⟩⟩⟩⟩ <;>
    simp only [List.length_cons, List.length_nil] at hlen <;>
    interval_cases n <;>
    first
      | omega
      | rfl
      | simp [inlineMultibyteContent, zeroContent, padContent]

theorem inlineMultibyteContent_none (n : Nat) (b : List Byte) (hn1 : 1 ≤ n)
    (hn7 : n ≤ 7) (hlen : b.length < 1 + n) :
    inlineMultibyteContent n b zeroContent = none := by
  rcases b with _ | ⟨h, _ | ⟨x1, _ | ⟨x2, _ | ⟨x3, _ | ⟨x4, _ | ⟨x5, _ | ⟨x6, _ | ⟨x7, rest⟩⟩⟩⟩⟩⟩⟩⟩ <;>
    simp only [List.length_cons, List.length_nil] at hlen <;>
    interval_cases n <;>
    first
      | omega
      | rfl

theorem inlineMultibyteContent_large (n : Nat) (b : List Byte) (hn : 8 ≤ n) :
    inlineMultibyteContent n b zeroContent = some zeroContent := by
  unfold inlineMultibyteContent
  split <;> first | omega | rfl

/-- Inline strings of one to seven bytes are copied into the content. -/
theorem DecodeSlice_inline_small (c : Codec) (n : Nat) (b : List Byte) (hn1 : 1 ≤ n)
    (hn7 : n ≤ 7) (h0 : at64 b 0 = some (0x80 ||| (n - 1))) (hlen : 1 + n ≤ b.length) :
    DecodeSlice c b = some (n, padContent ((b.drop 1).take n)) := by
  rcases b with _ | ⟨h, t⟩
  · simp at hlen
  · simp only [at64, List.getElem?_cons_zero, Option.map_some', Option.some.injEq] at h0
    simp only [List.length_cons] at hlen
    have hf := inline_header_fields ⟨n - 1, by omega⟩
    simp only [← h0] at hf
    have hl : u8 ((h.val &&& InlineMask) + 1) = n := by rw [hf.2]; omega
    rw [DecodeSlice_inline c h t hf.1, hl,
      inlineMultibyteContent_eq n h t hn1 hn7 (by omega)]
    rfl

/-- With prefix count 0 the switch adds no offset: the decoded length is the
carryover alone. -/
theorem DecodeSlice_count0 (c : Codec) (j : Nat) (b : List Byte) (hW0 : 0 ≤ c.Length)
    (hW8 : c.Length ≤ 8) (hj : j < 8) (h0 : at64 b 0 = some (0xC0 ||| j))
    (hlen : 1 + c.Length.toNat ≤ b.length) :
    DecodeSlice c b = some (j, padContent ((b.drop 1).take c.Length.toNat)) := by
  rcases b with _ | ⟨h, t⟩
  · simp at hlen
  · simp only [at64, List.getElem?_cons_zero, Option.map_some', Option.some.injEq] at h0
    have hb := header_build ⟨0, by decide⟩ ⟨j, hj⟩
    have hf := header_fields ⟨0, by decide⟩ ⟨j, hj⟩
    simp only [Nat.zero_shiftLeft, Nat.or_zero, Nat.mul_zero, Nat.add_zero] at hb hf
    rw [← hb, ← h0] at hf
    obtain ⟨ht, hk, hc⟩ := hf
    have hl : referenceLength ((h.val &&& ReferencePrefixMask) >>> 3)
        (h.val &&& ReferenceCarryoverMask) (h :: t) = some j := by
      rw [hk, hc]; rfl
    have := DecodeSlice_reference_ok c h t ht j hl hW0 hW8 (by rw [hk]; omega)
    rw [hk] at this
    exact this

/-- With a prefix count from 1 to 6 the decoded length is the offset plus the
carryover and the big-endian prefix bytes. -/
theorem DecodeSlice_count16 (c : Codec) (k j : Nat) (b : List Byte) (hW0 : 0 ≤ c.Length)
    (hW8 : c.Length ≤ 8) (hk1 : 1 ≤ k) (hk6 : k ≤ 6) (hj : j < 8)
    (h0 : at64 b 0 = some (0xC0 ||| (k <<< 3) ||| j))
    (hlen : 1 + k + c.Length.toNat ≤ b.length) :
    DecodeSlice c b
      = some (offset k + (j * 256 ^ k + bigEndian ((b.drop 1).take k)),
          padContent ((b.drop (1 + k)).take c.Length.toNat)) := by
  rcases b with _ | ⟨h, t⟩
  · simp at hlen
  · simp only [at64, List.getElem?_cons_zero, Option.map_some', Option.some.injEq] at h0
    have hb := header_build ⟨k, by omega⟩ ⟨j, hj⟩
    have hf := header_fields ⟨k, by omega⟩ ⟨j, hj⟩
    simp only [] at hb hf
    rw [← hb, ← h0] at hf
    obtain ⟨ht, hk, hc⟩ := hf
    have hl := referenceLength_eq k j (h :: t) hk1 hk6 hj (by omega)
    rw [← hk, ← hc] at hl
    have := DecodeSlice_reference_ok c h t ht _ hl hW0 hW8 (by rw [hk]; omega)
    rw [hk, hc] at this
    exact this

/-! ## Bounds on the decoded length -/

theorem foldl_bigEndian_acc (bs : List Byte) : ∀ acc : Nat,
    bs.foldl (fun acc x => acc * 256 + x.val) acc
      = acc * 256 ^ bs.length + bs.foldl (fun acc x => acc * 256 + x.val) 0 := by
  induction bs with
  | nil => intro acc; simp
  | cons x xs ih =>
    intro acc
    simp only [List.foldl_cons, List.length_cons]
    rw [ih (acc * 256 + x.val), ih (0 * 256 + x.val)]
    ring

theorem bigEndian_cons (x : Byte) (bs : List Byte) :
    bigEndian (x :: bs) = x.val * 256 ^ bs.length + bigEndian bs := by
  unfold bigEndian
  rw [List.foldl_cons, foldl_bigEndian_acc]
  simp

theorem bigEndian_lt (bs : List Byte) : bigEndian bs < 256 ^ bs.length := by
  induction bs with
  | nil => simp [bigEndian]
  | cons x xs ih =>
    rw [bigEndian_cons, List.length_cons, pow_succ]
    have hx := x.isLt
    nlinarith

theorem referenceLength_le (k j : Nat) (b : List Byte) (l : Nat) (hk : k ≤ 7) (hj : j < 8)
    (h : referenceLength k j b = some l) :
    l ≤ MaxLength + offset7 ∧ (k ≤ 6 → l < offset7) := by
  rcases Nat.eq_zero_or_pos k with rfl | hk1
  · simp only [referenceLength, Option.some.injEq] at h
    subst h
    simp only [MaxLength, offset7]
    omega
  · by_cases hlen : b.length < k + 1
    · rw [referenceLength_none k j b hk1 hk hlen] at h
      cases h
    · by_cases hk6 : k ≤ 6
      · rw [referenceLength_eq k j b hk1 hk6 hj (by omega)] at h
        simp only [Option.some.injEq] at h
        have hb := bigEndian_lt ((b.drop 1).take k)
        have hl : ((b.drop 1).take k).length = k := by
          rw [List.length_take, List.length_drop]; omega
        rw [hl] at hb
        subst h
        interval_cases k <;>
          simp only [offset, offset1, offset2, offset3, offset4, offset5, offset6, offset7,
            MaxLength] <;>
          norm_num at hb ⊢ <;> omega
      · have hk7 : k = 7 := by omega
        subst hk7
        rcases b with _ | ⟨h0, _ | ⟨x1, _ | ⟨x2, _ | ⟨x3, _ | ⟨x4, _ | ⟨x5, _ | ⟨x6, _ | ⟨x7, rest⟩⟩⟩⟩⟩⟩⟩⟩ <;>
          simp only [List.length_cons, List.length_nil] at hlen <;>
          first
            | omega
            | skip
        simp only [referenceLength, at64, List.getElem?_cons_succ, List.getElem?_cons_zero,
          Option.map_some', Option.bind_eq_bind, Option.some_bind, Option.some.injEq] at h
        subst h
        exact ⟨pack7_le j _ _ _ _ _ _ _ hj x1.isLt x2.isLt x3.isLt x4.isLt x5.isLt x6.isLt
          x7.isLt, by omega⟩

/-- A successful reference decode returns the length computed by the switch. -/
theorem DecodeSlice_reference_length (c : Codec) (h : Byte) (t : List Byte)
    (ht : h.val &&& TypeMask = TypeReference) (l : Nat) (content : Content)
    (hd : DecodeSlice c (h :: t) = some (l, content)) :
    referenceLength ((h.val &&& ReferencePrefixMask) >>> 3)
      (h.val &&& ReferenceCarryoverMask) (h :: t) = some l := by
  rw [DecodeSlice_reference c h t ht] at hd
  cases hr : referenceLength ((h.val &&& ReferencePrefixMask) >>> 3)
      (h.val &&& ReferenceCarryoverMask) (h :: t) with
  | none => rw [hr] at hd; cases hd
  | some l1 =>
    rw [hr, Option.some_bind] at hd
    split_ifs at hd
    cases hc : copyLoop ((h :: t).drop (1 + (h.val &&& ReferencePrefixMask) >>> 3))
        c.Length.toNat 0 zeroContent with
    | none => rw [hc] at hd; cases hd
    | some c1 =>
      rw [hc, Option.some_bind, Option.some.injEq, Prod.mk.injEq] at hd
      rw [hd.1]

theorem DecodeSlice_length_le (c : Codec) (b : List Byte) (l : Nat) (content : Content)
    (hd : DecodeSlice c b = some (l, content)) :
    l ≤ MaxLength + offset7 ∧ ∀ h, at64 b 0 = some h → h < 0xF8 → l ≤ MaxLength := by
  rcases b with _ | ⟨h, t⟩
  · cases hd
  · have hsmall : l ≤ 64 → l ≤ MaxLength + offset7 ∧
        ∀ h', at64 (h :: t) 0 = some h' → h' < 0xF8 → l ≤ MaxLength := by
      intro hl
      simp only [MaxLength, offset7]
      exact ⟨by omega, fun _ _ _ => by omega⟩
    rcases header_cases h with ht | ht | ht | ht
    · rw [DecodeSlice_nilType c h t ht, Option.some.injEq, Prod.mk.injEq] at hd
      exact hsmall (by omega)
    · rw [DecodeSlice_inlineByte c h t ht, Option.some.injEq, Prod.mk.injEq] at hd
      exact hsmall (by omega)
    · rw [DecodeSlice_inline c h t ht] at hd
      cases hc : inlineMultibyteContent (u8 ((h.val &&& InlineMask) + 1)) (h :: t) zeroContent with
      | none => rw [hc] at hd; cases hd
      | some c1 =>
        rw [hc, Option.some_bind, Option.some.injEq, Prod.mk.injEq] at hd
        have := (header_inline h ht).2.1
        exact hsmall (by omega)
    · have hl := DecodeSlice_reference_length c h t ht l content hd
      obtain ⟨hk, hj, hv⟩ := header_reference h ht
      have hb := referenceLength_le _ _ _ l hk (by omega) hl
      refine ⟨hb.1, ?_⟩
      intro h' h0 hlt
      simp only [at64, List.getElem?_cons_zero, Option.map_some', Option.some.injEq] at h0
      have := hb.2 (by omega)
      simp only [offset7, MaxLength] at this ⊢
      omega

/-! ## Reference content and truncated buffers -/

/-- For a hash length of at most 8 a reference decode succeeds and returns the
digest bytes, zero-padded to the eight-byte content. -/
theorem DecodeSlice_reference_content (c : Codec) (b : List Byte) (h : Nat)
    (hW0 : 0 ≤ c.Length) (hW8 : c.Length ≤ 8) (h0 : at64 b 0 = some h)
    (ht : h &&& TypeMask = TypeReference)
    (hlen : 1 + (h &&& ReferencePrefixMask) >>> 3 + c.Length.toNat ≤ b.length) :
    ∃ l, DecodeSlice c b
      = some (l, padContent ((b.drop (1 + (h &&& ReferencePrefixMask) >>> 3)).take
          c.Length.toNat)) := by
  rcases b with _ | ⟨hd, t⟩
  · simp at hlen
  · simp only [at64, List.getElem?_cons_zero, Option.map_some', Option.some.injEq] at h0
    subst h0
    obtain ⟨hk, _, _⟩ := header_reference hd ht
    obtain ⟨l, hl⟩ := referenceLength_isSome ((hd.val &&& ReferencePrefixMask) >>> 3)
      (hd.val &&& ReferenceCarryoverMask) (hd :: t) hk (by omega)
    exact ⟨l, DecodeSlice_reference_ok c hd t ht l hl hW0 hW8 hlen⟩

/-- A buffer shorter than its declared layout is rejected, as long as an inline
multibyte lead byte declares at most seven content bytes. -/
theorem DecodeSlice_truncated (c : Codec) (b : List Byte) (ht : Truncated c b)
    (hsmall : ∀ h, at64 b 0 = some h → h &&& TypeMask = TypeInlineMultibyte →
      (h &&& InlineMask) + 1 ≤ 7) :
    DecodeSlice c b = none := by
  rcases ht with rfl | ⟨h, h0, hs⟩
  · rfl
  · rcases b with _ | ⟨hd, t⟩
    · simp [at64] at h0
    · have hsm := hsmall h h0
      simp only [at64, List.getElem?_cons_zero, Option.map_some', Option.some.injEq] at h0
      subst h0
      simp only [List.length_cons] at hs
      rcases header_cases hd with ht | ht | ht | ht
      · have e : layoutSize c hd.val = 1 := by
          unfold layoutSize
          rw [if_neg (by rw [ht]; decide), if_neg (by rw [ht]; decide)]
        rw [e] at hs
        omega
      · have e : layoutSize c hd.val = 1 := by
          unfold layoutSize
          rw [if_neg (by rw [ht]; decide), if_neg (by rw [ht]; decide)]
        rw [e] at hs
        omega
      · have hn := hsm ht
        have e : layoutSize c hd.val = ((1 + ((hd.val &&& InlineMask) + 1) : Nat) : Int) := by
          unfold layoutSize
          rw [if_pos ht]
        rw [e] at hs
        have hu : u8 ((hd.val &&& InlineMask) + 1) = (hd.val &&& InlineMask) + 1 :=
          u8_of_lt (by omega)
        rw [DecodeSlice_inline c hd t ht, hu,
          inlineMultibyteContent_none _ (hd :: t) (by omega) hn
            (by simp only [List.length_cons]; omega)]
        rfl
      · have e : layoutSize c hd.val
            = ((1 + (hd.val &&& ReferencePrefixMask) >>> 3 : Nat) : Int) + c.Length := by
          unfold layoutSize
          rw [if_neg (by rw [ht]; decide), if_pos ht]
        rw [e] at hs
        rw [DecodeSlice_reference c hd t ht]
        cases referenceLength ((hd.val &&& ReferencePrefixMask) >>> 3)
            (hd.val &&& ReferenceCarryoverMask) (hd :: t) with
        | none => rfl
        | some l =>
          rw [Option.some_bind]
          by_cases hshort : (hd :: t).length < 1 + (hd.val &&& ReferencePrefixMask) >>> 3
          · rw [if_pos hshort]
          · rw [if_neg hshort, if_pos]
            rw [List.length_drop]
            simp only [List.length_cons] at hshort ⊢
            omega

/-! ## Round trip through the wire format -/

theorem bigEndianBytes_length (k x : Nat) : (bigEndianBytes k x).length = k := by
  induction k with
  | zero => rfl
  | succ k ih => simp [bigEndianBytes, ih]

theorem bigEndian_bigEndianBytes (k x : Nat) :
    bigEndian (bigEndianBytes k x) = x % 256 ^ k := by
  induction k with
  | zero => simp [bigEndianBytes, bigEndian, Nat.mod_one]
  | succ k ih =>
    rw [bigEndianBytes, bigEndian_cons, ih, bigEndianBytes_length, Nat.shiftRight_eq_div_pow]
    have e : (2 : Nat) ^ (8 * k) = 256 ^ k := by rw [pow_mul]; norm_num
    have hv : (Fin.ofNat (x / 2 ^ (8 * k)) : Byte).val = x / 256 ^ k % 256 := by
      rw [e]; rfl
    rw [hv, Nat.mod_pow_succ]
    ring

theorem prefixCount_eq (k L : Nat) (hk1 : 1 ≤ k) (hk6 : k ≤ 6) (hlo : offset k ≤ L)
    (hhi : L < offset (k + 1)) : prefixCount L = k := by
  unfold prefixCount
  interval_cases k <;>
    simp only [offset, offset1, offset2, offset3, offset4, offset5, offset6, offset7] at * <;>
    split_ifs <;> omega

theorem take_drop_header (x : Byte) (bs C : List Byte) (k : Nat) (hk : bs.length = k) :
    ((x :: (bs ++ C)).drop 1).take k = bs := by
  rw [List.drop_one, List.tail_cons]
  exact List.take_left' hk

theorem drop_header (x : Byte) (bs C : List Byte) (k : Nat) (hk : bs.length = k) :
    (x :: (bs ++ C)).drop (1 + k) = C := by
  rw [Nat.add_comm 1 k, List.drop_succ_cons, List.drop_left' hk]

theorem roundtrip_reference (k L W : Nat) (C : List Byte) (hk1 : 1 ≤ k) (hk6 : k ≤ 6)
    (hW : W ≤ 8) (hC : C.length = W) (hlo : offset k ≤ L) (hhi : L < offset (k + 1)) :
    DecodeSlice ⟨(W : Int)⟩
        (Fin.ofNat (TypeReference ||| (k <<< 3) ||| ((L - offset k) >>> (8 * k)))
          :: (bigEndianBytes k (L - offset k) ++ C))
      = some (L, padContent C) := by
  have e : (2 : Nat) ^ (8 * k) = 256 ^ k := by rw [pow_mul]; norm_num
  have hraw : L - offset k < 256 ^ k * 8 := by
    interval_cases k <;>
      simp only [offset, offset1, offset2, offset3, offset4, offset5, offset6, offset7] at * <;>
      omega
  have hj : (L - offset k) >>> (8 * k) < 8 := by
    rw [Nat.shiftRight_eq_div_pow, e]
    exact Nat.div_lt_of_lt_mul hraw
  have hb := header_build ⟨k, by omega⟩ ⟨_, hj⟩
  simp only [] at hb
  have h0 : at64 (Fin.ofNat (TypeReference ||| (k <<< 3) ||| ((L - offset k) >>> (8 * k)))
      :: (bigEndianBytes k (L - offset k) ++ C)) 0
      = some (0xC0 ||| (k <<< 3) ||| ((L - offset k) >>> (8 * k))) := by
    simp only [at64, List.getElem?_cons_zero, Option.map_some', Option.some.injEq, TypeReference]
    show (0xC0 ||| (k <<< 3) ||| ((L - offset k) >>> (8 * k))) % 256 = _
    rw [hb]
    omega
  have hd := DecodeSlice_count16 ⟨(W : Int)⟩ k _ _ (by simp) (by simp; omega) hk1 hk6 hj h0
    (by simp [bigEndianBytes_length, hC]; omega)
  rw [hd, take_drop_header _ _ _ _ (bigEndianBytes_length _ _),
    drop_header _ _ _ _ (bigEndianBytes_length _ _), bigEndian_bigEndianBytes,
    Nat.shiftRight_eq_div_pow, e, Nat.div_add_mod']
  have hC' : List.take (W : Int).toNat C = C := by simp [hC]
  simp only [hC']
  congr 2
  omega

theorem carries_padContent (bs : List Byte) (h : bs.length ≤ 8) :
    Carries (padContent bs) bs := by
  unfold Carries padContent
  rw [List.take_left, List.take_of_length_le h]

set_option maxRecDepth 100000 in
theorem inlineByte_header_fields : ∀ v : Fin 256, v.val ≤ 63 →
    (Fin.ofNat (TypeInlineByte ||| v.val) : Byte).val &&& TypeMask = TypeInlineByte
      ∧ (Fin.ofNat ((Fin.ofNat (TypeInlineByte ||| v.val) : Byte).val &&& InlineMask) : Byte)
          = v := by
  decide

theorem roundtrip_inline (L W : Nat) (C : List Byte) (hL : L ≤ 7) (hC : C.length = L) :
    DecodeSlice ⟨(W : Int)⟩ (wireEncode L C) = some (L, padContent C) := by
  rcases Nat.eq_zero_or_pos L with rfl | hpos
  · rw [List.length_eq_zero] at hC
    subst hC
    rfl
  · by_cases h1 : L = 1 ∧ (C.headD 0).val ≤ 63
    · obtain ⟨rfl, hv⟩ := h1
      obtain ⟨v, rfl⟩ := List.length_eq_one.mp hC
      simp only [List.headD_cons] at hv
      have hw : wireEncode 1 [v] = [Fin.ofNat (TypeInlineByte ||| v.val)] := by
        simp [wireEncode, hv]
      obtain ⟨ht, he⟩ := inlineByte_header_fields v hv
      rw [hw, DecodeSlice_inlineByte _ _ _ ht, he]
      rfl
    · have hw : wireEncode L C = Fin.ofNat (TypeInlineMultibyte ||| (L - 1)) :: C := by
        unfold wireEncode
        rw [if_neg (by omega), if_neg h1, if_pos (by omega)]
      have h0 : at64 (Fin.ofNat (TypeInlineMultibyte ||| (L - 1)) :: C) 0
          = some (0x80 ||| (L - 1)) := by
        simp only [at64, List.getElem?_cons_zero, Option.map_some', Option.some.injEq]
        interval_cases L <;> decide
      rw [hw, DecodeSlice_inline_small _ L _ hpos hL h0 (by simp [hC]; omega)]
      rw [List.drop_one, List.tail_cons, List.take_of_length_le (by omega)]

theorem prefixCount_spec (L : Nat) (hlo : offset1 ≤ L) (hhi : L < offset7) :
    1 ≤ prefixCount L ∧ prefixCount L ≤ 6 ∧ offset (prefixCount L) ≤ L
      ∧ L < offset (prefixCount L + 1) := by
  unfold prefixCount
  simp only [offset1, offset2, offset3, offset4, offset5, offset6, offset7] at *
  split_ifs <;>
    simp only [offset, offset1, offset2, offset3, offset4, offset5, offset6, offset7] <;>
    omega

theorem roundtrip_decode (L W : Nat) (C : List Byte) (hW : W ≤ 8)
    (hL : L ≤ 7 ∨ (offset1 ≤ L ∧ L < offset7)) (hv : ValidInput L C W) :
    DecodeSlice ⟨(W : Int)⟩ (wireEncode L C) = some (L, padContent C) := by
  obtain ⟨_, hin, href⟩ := hv
  rcases hL with hL | ⟨hlo, hhi⟩
  · exact roundtrip_inline L W C hL (hin (by omega))
  · have h64 : 64 < L := by simp only [offset1] at hlo; omega
    obtain ⟨hk1, hk6, hklo, hkhi⟩ := prefixCount_spec L hlo hhi
    have hw : wireEncode L C
        = Fin.ofNat (TypeReference ||| (prefixCount L <<< 3)
            ||| ((L - offset (prefixCount L)) >>> (8 * prefixCount L)))
          :: (bigEndianBytes (prefixCount L) (L - offset (prefixCount L)) ++ C) := by
      unfold wireEncode
      rw [if_neg (by omega), if_neg (by omega), if_neg (by omega)]
    rw [hw]
    exact roundtrip_reference (prefixCount L) L W C hk1 hk6 hW (href h64) hklo hkhi

/-! ## Inversion of a successful decode -/

theorem u8_inline (h : Nat) : u8 ((h &&& InlineMask) + 1) = (h &&& InlineMask) + 1 := by
  have : h &&& InlineMask ≤ InlineMask := Nat.and_le_right
  simp only [InlineMask] at this ⊢
  exact u8_of_lt (by omega)

/-- A successful inline multibyte decode returns the low six bits plus one and
the content produced by the inner switch. -/
theorem DecodeSlice_inline_inv (c : Codec) (h : Byte) (t : List Byte)
    (ht : h.val &&& TypeMask = TypeInlineMultibyte) (l : Nat) (content : Content)
    (hd : DecodeSlice c (h :: t) = some (l, content)) :
    l = (h.val &&& InlineMask) + 1
      ∧ inlineMultibyteContent ((h.val &&& InlineMask) + 1) (h :: t) zeroContent
          = some content := by
  rw [DecodeSlice_inline c h t ht, u8_inline] at hd
  cases hc : inlineMultibyteContent ((h.val &&& InlineMask) + 1) (h :: t) zeroContent with
  | none => rw [hc] at hd; cases hd
  | some c1 =>
    rw [hc, Option.some_bind, Option.some.injEq, Prod.mk.injEq] at hd
    exact ⟨hd.1.symm, by rw [hd.2]⟩

/-- A successful reference decode: the switch yields the length, the buffer
holds the prefix bytes and the digest, and the loop yields the content. -/
theorem DecodeSlice_reference_inv (c : Codec) (h : Byte) (t : List Byte)
    (ht : h.val &&& TypeMask = TypeReference) (l : Nat) (content : Content)
    (hd : DecodeSlice c (h :: t) = some (l, content)) :
    referenceLength ((h.val &&& ReferencePrefixMask) >>> 3)
        (h.val &&& ReferenceCarryoverMask) (h :: t) = some l
      ∧ 1 + (h.val &&& ReferencePrefixMask) >>> 3 ≤ (h :: t).length
      ∧ c.Length ≤ (((h :: t).drop (1 + (h.val &&& ReferencePrefixMask) >>> 3)).length : Int)
      ∧ copyLoop ((h :: t).drop (1 + (h.val &&& ReferencePrefixMask) >>> 3))
          c.Length.toNat 0 zeroContent = some content := by
  have hl := DecodeSlice_reference_length c h t ht l content hd
  rw [DecodeSlice_reference c h t ht, hl, Option.some_bind] at hd
  split_ifs at hd with h1 h2
  cases hc : copyLoop ((h :: t).drop (1 + (h.val &&& ReferencePrefixMask) >>> 3))
      c.Length.toNat 0 zeroContent with
  | none => rw [hc] at hd; cases hd
  | some c1 =>
    rw [hc, Option.some_bind, Option.some.injEq, Prod.mk.injEq] at hd
    exact ⟨hl, by omega, by omega, by rw [hd.2]⟩

/-- Outside the reference tier the codec plays no part in the decoding. -/
theorem DecodeSlice_nonreference (c1 c2 : Codec) (h : Byte) (t : List Byte)
    (ht : h.val &&& TypeMask ≠ TypeReference) :
    DecodeSlice c1 (h :: t) = DecodeSlice c2 (h :: t) := by
  rcases header_cases h with h1 | h1 | h1 | h1
  · rw [DecodeSlice_nilType c1 h t h1, DecodeSlice_nilType c2 h t h1]
  · rw [DecodeSlice_inlineByte c1 h t h1, DecodeSlice_inlineByte c2 h t h1]
  · rw [DecodeSlice_inline c1 h t h1, DecodeSlice_inline c2 h t h1]
  · exact absurd h1 ht

/-! ## Bytes past the declared layout -/

theorem getElem?_append_some (b s : List Byte) (i : Nat) (x : Byte) (h : b[i]? = some x) :
    (b ++ s)[i]? = some x := by
  have hi : i < b.length := by
    by_contra hn
    rw [List.getElem?_eq_none (by omega)] at h
    cases h
  rw [List.getElem?_append_left hi, h]

theorem copyLoop_append (d s : List Byte) : ∀ (n i : Nat) (content r : Content),
    copyLoop d n i content = some r → copyLoop (d ++ s) n i content = some r := by
  intro n
  induction n with
  | zero => intro i content r h; simpa [copyLoop] using h
  | succ n ih =>
    intro i content r h
    rw [copyLoop] at h ⊢
    by_cases hi : i < 8
    · rw [if_pos hi] at h ⊢
      cases hx : d[i]? with
      | none => rw [hx] at h; cases h
      | some x =>
        rw [hx] at h
        rw [getElem?_append_some d s i x hx]
        exact ih _ _ _ h
    · rw [if_neg hi] at h
      cases h

theorem referenceLength_append (k j : Nat) (b s : List Byte) (l : Nat) (hk : k ≤ 7)
    (hj : j < 8) (h : referenceLength k j b = some l) :
    referenceLength k j (b ++ s) = some l := by
  rcases Nat.eq_zero_or_pos k with rfl | hk1
  · exact h
  · by_cases hlen : b.length < k + 1
    · rw [referenceLength_none k j b hk1 hk hlen] at h
      cases h
    · by_cases hk6 : k ≤ 6
      · rw [referenceLength_eq k j b hk1 hk6 hj (by omega)] at h
        rw [referenceLength_eq k j (b ++ s) hk1 hk6 hj (by rw [List.length_append]; omega),
          List.drop_append_of_le_length (by omega),
          List.take_append_of_le_length (by rw [List.length_drop]; omega)]
        exact h
      · have hk7 : k = 7 := by omega
        subst hk7
        rcases b with _ | ⟨h0, _ | ⟨x1, _ | ⟨x2, _ | ⟨x3, _ | ⟨x4, _ | ⟨x5, _ | ⟨x6, _ | ⟨x7, rest⟩⟩⟩⟩⟩⟩⟩⟩ <;>
          simp only [List.length_cons, List.length_nil] at hlen <;>
          first
            | omega
            | skip
        simp only [List.cons_append, referenceLength, at64, List.getElem?_cons_succ,
          List.getElem?_cons_zero, Option.map_some', Option.bind_eq_bind, Option.some_bind]
          at h ⊢
        exact h

theorem inlineMultibyteContent_append (n : Nat) (b s : List Byte) (r : Content)
    (h : inlineMultibyteContent n b zeroContent = some r) :
    inlineMultibyteContent n (b ++ s) zeroContent = some r := by
  by_cases h8 : 8 ≤ n
  · rw [inlineMultibyteContent_large n b h8] at h
    rw [inlineMultibyteContent_large n _ h8, h]
  · rcases Nat.eq_zero_or_pos n with rfl | h1
    · exact h
    · by_cases hlen : b.length < 1 + n
      · rw [inlineMultibyteContent_none n b h1 (by omega) hlen] at h
        cases h
      · rcases b with _ | ⟨h0, t⟩
        · simp at hlen
        · simp only [List.length_cons] at hlen
          rw [inlineMultibyteContent_eq n h0 t h1 (by omega) (by omega)] at h
          rw [List.cons_append, inlineMultibyteContent_eq n h0 _ h1 (by omega)
            (by rw [List.length_append]; omega), List.take_append_of_le_length (by omega)]
          exact h

theorem DecodeSlice_append (c : Codec) (b s : List Byte) (l : Nat) (content : Content)
    (hd : DecodeSlice c b = some (l, content)) :
    DecodeSlice c (b ++ s) = some (l, content) := by
  rcases b with _ | ⟨h, t⟩
  · cases hd
  · rw [List.cons_append]
    rcases header_cases h with ht | ht | ht | ht
    · rw [DecodeSlice_nilType c h t ht] at hd
      rw [DecodeSlice_nilType c h _ ht, hd]
    · rw [DecodeSlice_inlineByte c h t ht] at hd
      rw [DecodeSlice_inlineByte c h _ ht, hd]
    · obtain ⟨hl, hc⟩ := DecodeSlice_inline_inv c h t ht l content hd
      have := inlineMultibyteContent_append _ _ s _ hc
      rw [List.cons_append] at this
      rw [DecodeSlice_inline c h _ ht, u8_inline, this, hl]
      rfl
    · obtain ⟨hl, hlen, hW, hc⟩ := DecodeSlice_reference_inv c h t ht l content hd
      obtain ⟨hk, hj, _⟩ := header_reference h ht
      have h1 := referenceLength_append _ _ _ s l hk (by omega) hl
      have hdrop : (h :: (t ++ s)).drop (1 + (h.val &&& ReferencePrefixMask) >>> 3)
          = (h :: t).drop (1 + (h.val &&& ReferencePrefixMask) >>> 3) ++ s := by
        rw [← List.cons_append, List.drop_append_of_le_length hlen]
      have h2 := copyLoop_append _ s _ _ _ _ hc
      rw [List.cons_append] at h1
      rw [DecodeSlice_reference c h _ ht, h1, Option.some_bind, hdrop, h2]
      rw [if_neg, if_neg]
      · rfl
      · rw [List.length_append]; push_cast; omega
      · simp only [List.length_cons, List.length_append] at hlen ⊢; omega

/-! ## Ranges of the prefix counts -/

theorem pack7_ge (j x1 x2 x3 x4 x5 x6 x7 : Nat) (hj : j < 8) (h1 : x1 < 256) (h2 : x2 < 256)
    (h3 : x3 < 256) (h4 : x4 < 256) (h5 : x5 < 256) (h6 : x6 < 256) (h7 : x7 < 256) :
    offset7 ≤ u64 ((u64 (j <<< 56) ||| u64 (x1 <<< 48) ||| u64 (x2 <<< 40) ||| u64 (x3 <<< 32)
        ||| u64 (x4 <<< 24) ||| u64 (x5 <<< 8) ||| u64 (x6 <<< 8) ||| x7) + offset7) := by
  have b0 : u64 (j <<< 56) < 2 ^ 59 := by
    rw [Nat.shiftLeft_eq, u64_of_lt (by omega)]; omega
  have b1 : u64 (x1 <<< 48) < 2 ^ 59 := by
    rw [Nat.shiftLeft_eq, u64_of_lt (by omega)]; omega
  have b2 : u64 (x2 <<< 40) < 2 ^ 59 := by
    rw [Nat.shiftLeft_eq, u64_of_lt (by omega)]; omega
  have b3 : u64 (x3 <<< 32) < 2 ^ 59 := by
    rw [Nat.shiftLeft_eq, u64_of_lt (by omega)]; omega
  have b4 : u64 (x4 <<< 24) < 2 ^ 59 := by
    rw [Nat.shiftLeft_eq, u64_of_lt (by omega)]; omega
  have b5 : u64 (x5 <<< 8) < 2 ^ 59 := by
    rw [Nat.shiftLeft_eq, u64_of_lt (by omega)]; omega
  have b6 : u64 (x6 <<< 8) < 2 ^ 59 := by
    rw [Nat.shiftLeft_eq, u64_of_lt (by omega)]; omega
  have b7 : x7 < 2 ^ 59 := by omega
  have hor := or_lt_pow (or_lt_pow (or_lt_pow (or_lt_pow (or_lt_pow (or_lt_pow
    (or_lt_pow b0 b1) b2) b3) b4) b5) b6) b7
  rw [u64_of_lt (by simp only [offset7]; omega)]
  omega

/-- The lengths decoded with prefix count `k` lie from `offset k` (for `k >= 1`)
up to, but not including, `offset (k + 1)` (for `k <= 6`). -/
theorem referenceLength_range (k j : Nat) (b : List Byte) (l : Nat) (hk : k ≤ 7) (hj : j < 8)
    (h : referenceLength k j b = some l) :
    (k ≤ 6 → l < offset (k + 1)) ∧ (1 ≤ k → offset k ≤ l) := by
  rcases Nat.eq_zero_or_pos k with rfl | hk1
  · simp only [referenceLength, Option.some.injEq] at h
    subst h
    simp only [offset, offset1]
    omega
  · by_cases hlen : b.length < k + 1
    · rw [referenceLength_none k j b hk1 hk hlen] at h
      cases h
    · by_cases hk6 : k ≤ 6
      · rw [referenceLength_eq k j b hk1 hk6 hj (by omega)] at h
        simp only [Option.some.injEq] at h
        have hb := bigEndian_lt ((b.drop 1).take k)
        have hl : ((b.drop 1).take k).length = k := by
          rw [List.length_take, List.length_drop]; omega
        rw [hl] at hb
        subst h
        interval_cases k <;>
          simp only [offset, offset1, offset2, offset3, offset4, offset5, offset6, offset7] <;>
          norm_num at hb ⊢ <;> omega
      · have hk7 : k = 7 := by omega
        subst hk7
        rcases b with _ | ⟨h0, _ | ⟨x1, _ | ⟨x2, _ | ⟨x3, _ | ⟨x4, _ | ⟨x5, _ | ⟨x6, _ | ⟨x7, rest⟩⟩⟩⟩⟩⟩⟩⟩ <;>
          simp only [List.length_cons, List.length_nil] at hlen <;>
          first
            | omega
            | skip
        simp only [referenceLength, at64, List.getElem?_cons_succ, List.getElem?_cons_zero,
          Option.map_some', Option.bind_eq_bind, Option.some_bind, Option.some.injEq] at h
        subst h
        exact ⟨fun h6 => by omega, fun _ => pack7_ge j _ _ _ _ _ _ _ hj x1.isLt x2.isLt x3.isLt
          x4.isLt x5.isLt x6.isLt x7.isLt⟩

theorem offset_mono (a b : Nat) (ha : 1 ≤ a) (hab : a ≤ b) (hb : b ≤ 7) :
    offset a ≤ offset b := by
  interval_cases b <;> interval_cases a <;>
    simp only [offset, offset1, offset2, offset3, offset4, offset5, offset6, offset7] <;>
    omega

/-- A smaller prefix count decodes to a smaller length. -/
theorem DecodeSlice_count_lt (c : Codec) (b b' : List Byte) (h h' l l' : Nat)
    (content content' : Content) (h0 : at64 b 0 = some h) (h0' : at64 b' 0 = some h')
    (ht : h &&& TypeMask = TypeReference) (ht' : h' &&& TypeMask = TypeReference)
    (hd : DecodeSlice c b = some (l, content)) (hd' : DecodeSlice c b' = some (l', content'))
    (hc : (h &&& ReferencePrefixMask) >>> 3 < (h' &&& ReferencePrefixMask) >>> 3) :
    l < l' := by
  rcases b with _ | ⟨x, t⟩
  · cases hd
  rcases b' with _ | ⟨x', t'⟩
  · cases hd'
  simp only [at64, List.getElem?_cons_zero, Option.map_some', Option.some.injEq] at h0 h0'
  subst h0
  subst h0'
  obtain ⟨hk, hj, _⟩ := header_reference x ht
  obtain ⟨hk', hj', _⟩ := header_reference x' ht'
  have r := referenceLength_range _ _ _ l hk (by omega)
    (DecodeSlice_reference_length c x t ht l content hd)
  have r' := referenceLength_range _ _ _ l' hk' (by omega)
    (DecodeSlice_reference_length c x' t' ht' l' content' hd')
  have m := offset_mono ((x.val &&& ReferencePrefixMask) >>> 3 + 1)
    ((x'.val &&& ReferencePrefixMask) >>> 3) (by omega) (by omega) hk'
  have := r.1 (by omega)
  have := r'.2 (by omega)
  omega

/-! ## What the content holds -/

/-- More than eight iterations of the copy loop always end in a panic. -/
theorem copyLoop_fail (d : List Byte) : ∀ (n i : Nat) (content : Content),
    i ≤ 8 → 8 < i + n → copyLoop d n i content = none := by
  intro n
  induction n with
  | zero => intro i content h1 h2; omega
  | succ n ih =>
    intro i content h1 h2
    rw [copyLoop]
    by_cases hi : i < 8
    · rw [if_pos hi]
      cases d[i]? with
      | none => rfl
      | some x => exact ih (i + 1) _ (by omega) (by omega)
    · rw [if_neg hi]

/-- With a hash length above 8 every reference-tier buffer is rejected. -/
theorem DecodeSlice_reference_wide (c : Codec) (h : Byte) (t : List Byte)
    (ht : h.val &&& TypeMask = TypeReference) (hW : 8 < c.Length) :
    DecodeSlice c (h :: t) = none := by
  rw [DecodeSlice_reference c h t ht]
  cases referenceLength ((h.val &&& ReferencePrefixMask) >>> 3)
      (h.val &&& ReferenceCarryoverMask) (h :: t) with
  | none => rfl
  | some l =>
    rw [Option.some_bind]
    split_ifs
    · rfl
    · rfl
    · rw [copyLoop_fail _ _ 0 _ (by omega) (by omega)]
      rfl

theorem padContent_getElem?_lt (bs : List Byte) (i : Nat) (hi : i < bs.length) :
    (padContent bs)[i]? = bs[i]? := by
  unfold padContent
  rw [List.getElem?_append_left hi]

theorem padContent_getElem?_ge (bs : List Byte) (i : Nat) (hi : bs.length ≤ i) (h8 : i < 8) :
    (padContent bs)[i]? = some 0 := by
  unfold padContent
  rw [List.getElem?_append_right hi, List.getElem?_replicate, if_pos (by omega)]

/-- The entries of a zero-padded slice `d[0 .. n)`. -/
theorem padContent_take_getElem? (d : List Byte) (n : Nat) (hn : n ≤ d.length) :
    (∀ i, i < n → (padContent (d.take n))[i]? = d[i]?)
      ∧ (∀ i, n ≤ i → i < 8 → (padContent (d.take n))[i]? = some 0) := by
  have hl : (d.take n).length = n := by rw [List.length_take]; omega
  constructor
  · intro i hi
    rw [padContent_getElem?_lt _ _ (by omega), List.getElem?_take_of_lt hi]
  · intro i hi h8
    exact padContent_getElem?_ge _ _ (by omega) h8

/-- Inline strings of eight bytes or more decode to their length and a zero
content, whatever the buffer holds after the lead byte. -/
theorem DecodeSlice_inline_large (c : Codec) (h : Byte) (t : List Byte)
    (ht : h.val &&& TypeMask = TypeInlineMultibyte) (h8 : 8 ≤ (h.val &&& InlineMask) + 1) :
    DecodeSlice c (h :: t) = some ((h.val &&& InlineMask) + 1, zeroContent) := by
  rw [DecodeSlice_inline c h t ht, u8_inline, inlineMultibyteContent_large _ _ h8]
  rfl

/-! ## Order of the headers -/

theorem mul_add_lt_mul_add (x y a b X : Nat) (hxy : x < y) (ha : a < X) :
    x * X + a < y * X + b := by
  have h1 : (x + 1) * X ≤ y * X := Nat.mul_le_mul_right X hxy
  rw [Nat.succ_mul] at h1
  omega

theorem lexLt_iff_bigEndian_lt : ∀ (P Q : List Byte), P.length = Q.length →
    (lexLt P Q = true ↔ bigEndian P < bigEndian Q) := by
  intro P
  induction P with
  | nil =>
    intro Q hQ
    cases Q with
    | nil => simp [lexLt, bigEndian]
    | cons y ys => simp at hQ
  | cons x xs ih =>
    intro Q hQ
    cases Q with
    | nil => simp at hQ
    | cons y ys =>
      simp only [List.length_cons, Nat.add_right_cancel_iff] at hQ
      have hxs := bigEndian_lt xs
      have hys := bigEndian_lt ys
      rw [hQ] at hxs
      rw [bigEndian_cons, bigEndian_cons, hQ]
      simp only [lexLt, Bool.or_eq_true, Bool.and_eq_true, decide_eq_true_eq]
      constructor
      · rintro (hlt | ⟨heq, hl⟩)
        · exact mul_add_lt_mul_add _ _ _ _ _ hlt hxs
        · rw [heq]
          have := (ih ys hQ).mp hl
          omega
      · intro hlt
        rcases Nat.lt_trichotomy x.val y.val with h1 | h1 | h1
        · exact Or.inl h1
        · refine Or.inr ⟨h1, (ih ys hQ).mpr ?_⟩
          rw [h1] at hlt
          omega
        · have := mul_add_lt_mul_add _ _ (bigEndian ys) (bigEndian xs) _ h1 hys
          omega

theorem lexLt_total : ∀ (P Q : List Byte), lexLt P Q = false → P = Q ∨ lexLt Q P = true := by
  intro P
  induction P with
  | nil =>
    intro Q h
    cases Q with
    | nil => exact Or.inl rfl
    | cons y ys => simp [lexLt] at h
  | cons x xs ih =>
    intro Q h
    cases Q with
    | nil => exact Or.inr rfl
    | cons y ys =>
      simp only [lexLt, Bool.or_eq_false_iff, Bool.and_eq_false_iff, decide_eq_false_iff_not]
        at h
      obtain ⟨h1, h2⟩ := h
      rcases Nat.lt_trichotomy x.val y.val with h3 | h3 | h3
      · exact absurd h3 h1
      · rcases h2 with h2 | h2
        · exact absurd h3 h2
        · rcases ih ys h2 with h4 | h4
          · exact Or.inl (by rw [Fin.ext h3, h4])
          · refine Or.inr ?_
            simp only [lexLt, Bool.or_eq_true, Bool.and_eq_true, decide_eq_true_eq]
            exact Or.inr ⟨h3.symm, h4⟩
      · refine Or.inr ?_
        simp only [lexLt, Bool.or_eq_true, Bool.and_eq_true, decide_eq_true_eq]
        exact Or.inl h3

/-- The value of a header with prefix count `k`, carryover `j` and prefix bytes `P`
stays below the next offset. -/
theorem headerValue_lt (k j : Nat) (P : List Byte) (hk1 : 1 ≤ k) (hk6 : k ≤ 6) (hj : j < 8)
    (hP : P.length = k) : offset k + (j * 256 ^ k + bigEndian P) < offset (k + 1) := by
  have hb := bigEndian_lt P
  rw [hP] at hb
  interval_cases k <;>
    simp only [offset, offset1, offset2, offset3, offset4, offset5, offset6, offset7] <;>
    norm_num at hb ⊢ <;> omega

/-- A header that sorts first has the smaller value. -/
theorem headerValue_lt_of_lexLt (x x' : Byte) (P P' : List Byte) (k j k' j' : Nat)
    (hx : x.val = 0xC0 + 8 * k + j) (hx' : x'.val = 0xC0 + 8 * k' + j')
    (hk1 : 1 ≤ k) (hk6 : k ≤ 6) (hk1' : 1 ≤ k') (hk6' : k' ≤ 6) (hj : j < 8) (hj' : j' < 8)
    (hP : P.length = k) (hP' : P'.length = k')
    (h : lexLt (x :: P) (x' :: P') = true) :
    offset k + (j * 256 ^ k + bigEndian P) < offset k' + (j' * 256 ^ k' + bigEndian P') := by
  simp only [lexLt, Bool.or_eq_true, Bool.and_eq_true, decide_eq_true_eq] at h
  rcases h with hlt | ⟨heq, hl⟩
  · by_cases hkk : k < k'
    · have h1 := headerValue_lt k j P hk1 hk6 hj hP
      have h2 := offset_mono (k + 1) k' (by omega) (by omega) (by omega)
      omega
    · have hke : k = k' := by omega
      subst hke
      have hb := bigEndian_lt P
      rw [hP] at hb
      have := mul_add_lt_mul_add j j' (bigEndian P) (bigEndian P') (256 ^ k) (by omega) hb
      omega
  · have hke : k = k' := by omega
    have hje : j = j' := by omega
    subst hke
    subst hje
    have := (lexLt_iff_bigEndian_lt P P' (by rw [hP, hP'])).mp hl
    omega

/-- The normal form of a successful decode with prefix count 1..6. -/
theorem Count16_decode (c : Codec) (b : List Byte) (l : Nat) (content : Content)
    (hc : Count16 b) (hd : DecodeSlice c b = some (l, content)) :
    ∃ (x : Byte) (P : List Byte) (k j : Nat), headerOf b = x :: P
      ∧ x.val = 0xC0 + 8 * k + j ∧ 1 ≤ k ∧ k ≤ 6 ∧ j < 8 ∧ P.length = k
      ∧ l = offset k + (j * 256 ^ k + bigEndian P) := by
  obtain ⟨h, h0, ht, hk1, hk6⟩ := hc
  rcases b with _ | ⟨x, t⟩
  · cases hd
  · simp only [at64, List.getElem?_cons_zero, Option.map_some', Option.some.injEq] at h0
    subst h0
    obtain ⟨_, hj, hv⟩ := header_reference x ht
    obtain ⟨hl, hlen, _, _⟩ := DecodeSlice_reference_inv c x t ht l content hd
    simp only [List.length_cons] at hlen
    rw [referenceLength_eq _ _ _ hk1 hk6 (by omega) (by simp only [List.length_cons]; omega),
      Option.some.injEq, List.drop_one, List.tail_cons] at hl
    refine ⟨x, t.take ((x.val &&& ReferencePrefixMask) >>> 3), _, _, ?_, hv, hk1, hk6,
      by omega, ?_, hl.symm⟩
    · simp only [headerOf, countOf, List.headD_cons]
      rw [Nat.add_comm 1, List.take_succ_cons]
    · rw [List.length_take]; omega

/-- A buffer that decodes to a length from `offset1` to `offset7 - 1` is a
reference with prefix count 1..6. -/
theorem Count16_of_length (c : Codec) (b : List Byte) (l : Nat) (content : Content)
    (hd : DecodeSlice c b = some (l, content)) (hlo : offset1 ≤ l) (hhi : l < offset7) :
    Count16 b := by
  rcases b with _ | ⟨x, t⟩
  · cases hd
  · simp only [offset1] at hlo
    rcases header_cases x with ht | ht | ht | ht
    · rw [DecodeSlice_nilType c x t ht, Option.some.injEq, Prod.mk.injEq] at hd
      omega
    · rw [DecodeSlice_inlineByte c x t ht, Option.some.injEq, Prod.mk.injEq] at hd
      omega
    · obtain ⟨hl, _⟩ := DecodeSlice_inline_inv c x t ht l content hd
      have hm : x.val &&& InlineMask ≤ InlineMask := Nat.and_le_right
      simp only [InlineMask] at hm hl
      omega
    · obtain ⟨hk, hj, _⟩ := header_reference x ht
      have hl := DecodeSlice_reference_length c x t ht l content hd
      obtain ⟨r1, r2⟩ := referenceLength_range _ _ _ l hk (by omega) hl
      refine ⟨x.val, by simp [at64], ht, ?_, ?_⟩
      · by_contra h0
        have hz : (x.val &&& ReferencePrefixMask) >>> 3 = 0 := by omega
        rw [hz] at r1
        have := r1 (by omega)
        simp only [offset, offset1] at this
        omega
      · by_contra h7
        have hz : (x.val &&& ReferencePrefixMask) >>> 3 = 7 := by omega
        rw [hz] at r2
        have := r2 (by omega)
        simp only [offset] at this
        omega

theorem codec_toNat (c : Codec) (h : 0 ≤ c.Length) : (⟨(c.Length.toNat : Int)⟩ : Codec) = c := by
  cases c with
  | mk n =>
    simp only [Codec.mk.injEq]
    exact Int.toNat_of_nonneg h

/-- On the prefix counts 1..6 the decoded length is an order isomorphism from the
headers onto `offset1 .. offset7 - 1`. -/
theorem headerOrderIso (c : Codec) (hW0 : 0 ≤ c.Length) (hW8 : c.Length ≤ 8) :
    HeaderOrderIso c := by
  have key : ∀ b b' l l' content content', Count16 b → Count16 b' →
      DecodeSlice c b = some (l, content) → DecodeSlice c b' = some (l', content') →
      (lexLt (headerOf b) (headerOf b') = true → l < l')
        ∧ (headerOf b = headerOf b' → l = l') := by
    intro b b' l l' content content' hc hc' hd hd'
    obtain ⟨x, P, k, j, hh, hx, hk1, hk6, hj, hP, hl⟩ := Count16_decode c b l content hc hd
    obtain ⟨x', P', k', j', hh', hx', hk1', hk6', hj', hP', hl'⟩ :=
      Count16_decode c b' l' content' hc' hd'
    rw [hh, hh', hl, hl']
    refine ⟨headerValue_lt_of_lexLt x x' P P' k j k' j' hx hx' hk1 hk6 hk1' hk6' hj hj' hP hP',
      ?_⟩
    intro he
    rw [List.cons.injEq] at he
    obtain ⟨e1, e2⟩ := he
    subst e1
    subst e2
    have hke : k = k' := by omega
    subst hke
    have hje : j = j' := by omega
    rw [hje]
  refine ⟨?_, ?_, ?_, ?_⟩
  · intro b b' l l' content content' hc hc' hd hd'
    refine ⟨(key b b' l l' content content' hc hc' hd hd').1, ?_⟩
    intro hlt
    by_contra hn
    rcases lexLt_total _ _ (by simpa using hn) with he | hgt
    · have := (key b b' l l' content content' hc hc' hd hd').2 he
      omega
    · have := (key b' b l' l content' content hc' hc hd' hd).1 hgt
      omega
  · intro b l content hc hd
    obtain ⟨x, P, k, j, _, _, hk1, hk6, hj, hP, hl⟩ := Count16_decode c b l content hc hd
    have h1 := headerValue_lt k j P hk1 hk6 hj hP
    have h2 : offset1 ≤ offset k := offset_mono 1 k (by omega) hk1 (by omega)
    have h3 : offset (k + 1) ≤ offset7 := offset_mono (k + 1) 7 (by omega) (by omega) (by omega)
    rw [hl]
    omega
  · intro L hlo hhi
    have hd := roundtrip_decode L c.Length.toNat (List.replicate c.Length.toNat 0)
      (by omega) (Or.inr ⟨hlo, hhi⟩)
      ⟨by simp only [offset7, MaxLength] at hhi ⊢; omega,
        fun h64 => by simp only [offset1] at hlo; omega,
        fun _ => List.length_replicate _ _⟩
    rw [codec_toNat c hW0] at hd
    exact ⟨_, _, Count16_of_length c _ L _ hd hlo hhi, hd⟩
  · intro b b' l content content' hc hc' hd hd'
    by_contra hne
    rcases hb : lexLt (headerOf b) (headerOf b') with _ | _
    · rcases lexLt_total _ _ hb with he | hgt
      · exact hne he
      · have := (key b' b l l content' content hc' hc hd' hd).1 hgt
        omega
    · have := (key b b' l l content content' hc hc' hd hd').1 hb
      omega

/-! ## Claims -/

/-- C1 (counterexample): the valid input of length 64 with 64 content bytes `0xAA`
is encoded as `0xBF` followed by the 64 bytes; decoding it with `Codec{8}` returns
length 64 and an all-zero content, so the content is lost. -/
theorem C1_counterexample :
    ValidInput 64 (List.replicate 64 0xAA) 8
      ∧ DecodeSlice ⟨8⟩ (wireEncode 64 (List.replicate 64 0xAA)) = some (64, zeroContent)
      ∧ ¬ RoundTrips 64 (List.replicate 64 0xAA) 8 := by
  have e : DecodeSlice ⟨((8 : Nat) : Int)⟩ (wireEncode 64 (List.replicate 64 0xAA))
      = some (64, zeroContent) := by decide
  refine ⟨⟨by decide, by decide, by decide⟩, e, ?_⟩
  rintro ⟨content, h, hc⟩
  rw [e, Option.some.injEq, Prod.mk.injEq] at h
  rw [← h.2] at hc
  revert hc
  unfold Carries
  decide

/-- C1 (amended): for every represented length `L` with `0 <= L <= 7` under every
digest width `W`, and for every `L` with `offset1 <= L < offset7` (the lengths
encoded with prefix counts 1 to 6) under every digest width `W <= 8`, and every
content `C` valid for `L`, decoding the wire-format encoding of `(L, C, W)` with
`Codec{W}.DecodeSlice` returns exactly the length `L` and the content `C`,
zero-padded to the eight-byte `Content`. -/
theorem C1_round_trip (L W : Nat) (C : List Byte)
    (hL : L ≤ 7 ∨ (offset1 ≤ L ∧ L < offset7 ∧ W ≤ 8)) (hv : ValidInput L C W) :
    DecodeSlice ⟨(W : Int)⟩ (wireEncode L C) = some (L, padContent C)
      ∧ RoundTrips L C W := by
  have hd : DecodeSlice ⟨(W : Int)⟩ (wireEncode L C) = some (L, padContent C) := by
    rcases hL with hL | ⟨hlo, hhi, hW⟩
    · exact roundtrip_inline L W C hL (hv.2.1 (by omega))
    · exact roundtrip_decode L W C hW (Or.inr ⟨hlo, hhi⟩) hv
  refine ⟨hd, padContent C, hd, carries_padContent C ?_⟩
  obtain ⟨_, hin, href⟩ := hv
  rcases hL with hL | ⟨hlo, _, hW⟩
  · rw [hin (by omega)]; omega
  · rw [href (by simp only [offset1] at hlo; omega)]; exact hW

/-- C1 (witness): length 5 with the bytes `1 2 3 4 5` under the preset `Hash512`,
and length 2121 with the digest `1 2 3 4` under `Codec{4}`. -/
theorem C1_round_trip_witness :
    (DecodeSlice Hash512 (wireEncode 5 [1, 2, 3, 4, 5])
          = some (5, padContent [1, 2, 3, 4, 5])
        ∧ RoundTrips 5 [1, 2, 3, 4, 5] 64)
      ∧ (DecodeSlice ⟨((4 : Nat) : Int)⟩ (wireEncode 2121 [1, 2, 3, 4])
          = some (2121, padContent [1, 2, 3, 4])
        ∧ RoundTrips 2121 [1, 2, 3, 4] 4) :=
  ⟨C1_round_trip 5 64 [1, 2, 3, 4, 5] (Or.inl (by decide))
      ⟨by decide, by decide, by decide⟩,
    C1_round_trip 2121 4 [1, 2, 3, 4] (Or.inr ⟨by decide, by decide, by decide⟩)
      ⟨by decide, by decide, by decide⟩⟩

/-- C2 (code defect): with prefix count 0 the decoder returns the carryover and
never adds 65; lead byte `0xC0` followed by 8 zero bytes decodes to length 0 with
`Codec{8}`, where the claim and the length table of doc.go say 65. -/
theorem C2_count0_returns_carryover :
    DecodeSlice ⟨8⟩ (0xC0 :: List.replicate 8 0) = some (0, zeroContent)
      ∧ DecodeSlice ⟨8⟩ (0xC7 :: List.replicate 8 0xFF)
          = some (7, List.replicate 8 0xFF) := by
  decide

/-- C3 (code defect): with prefix count 7 the fifth prefix byte is shifted by 8
instead of 16; lead byte `0xF8` with prefix bytes `00 00 00 00 01 00 00` decodes to
`offset7 + 256` with `Codec{8}`, where the claim's formula gives `offset7 + 65536`. -/
theorem C3_count7_shifts_fifth_byte_by_8 :
    DecodeSlice ⟨8⟩ (0xF8 :: [0, 0, 0, 0, 1, 0, 0] ++ List.replicate 8 0)
        = some (offset7 + 256, zeroContent)
      ∧ offset 7 + (0 * 256 ^ 7 + bigEndian [0, 0, 0, 0, 1, 0, 0]) = offset7 + 65536 := by
  decide

/-- C4 (counterexample): lead byte `0xBF` followed by 64 bytes of `0xAA` decodes to
length 64 with an all-zero content; none of the 64 bytes is returned. -/
theorem C4_counterexample :
    at64 (0xBF :: List.replicate 64 0xAA) 0 = some (0x80 ||| (64 - 1))
      ∧ 1 + 64 ≤ (0xBF :: List.replicate 64 (0xAA : Byte)).length
      ∧ DecodeSlice ⟨8⟩ (0xBF :: List.replicate 64 0xAA) = some (64, zeroContent)
      ∧ ¬ Carries zeroContent (((0xBF : Byte) :: List.replicate 64 0xAA).drop 1 |>.take 64) := by
  unfold Carries
  decide

/-- C4 (amended): for every codec, every `n` in 1..7 and every buffer `b` with
`b[0] = 0x80 | (n - 1)` and `len(b) >= 1 + n`, `DecodeSlice` returns length `n` and
the content holding the `n` bytes `b[1..n]` followed by zero bytes. -/
theorem C4_inline_content_up_to_7 (c : Codec) (n : Nat) (b : List Byte) (hn1 : 1 ≤ n)
    (hn7 : n ≤ 7) (h0 : at64 b 0 = some (0x80 ||| (n - 1))) (hlen : 1 + n ≤ b.length) :
    DecodeSlice c b = some (n, padContent ((b.drop 1).take n))
      ∧ Carries (padContent ((b.drop 1).take n)) ((b.drop 1).take n) := by
  refine ⟨DecodeSlice_inline_small c n b hn1 hn7 h0 hlen, ?_⟩
  have hl : ((b.drop 1).take n).length ≤ 8 := by
    rw [List.length_take]; omega
  unfold Carries padContent
  rw [List.take_left, List.take_of_length_le hl]

/-- C4 (witness): lead byte `0x82` followed by `1 2 3 4` decodes to the three
content bytes `1 2 3`. -/
theorem C4_inline_content_witness :
    DecodeSlice ⟨8⟩ [0x82, 1, 2, 3, 4] = some (3, padContent [1, 2, 3])
      ∧ Carries (padContent [1, 2, 3]) [1, 2, 3] :=
  C4_inline_content_up_to_7 ⟨8⟩ 3 [0x82, 1, 2, 3, 4] (by decide) (by decide) (by decide)
    (by decide)

/-- C5 (code defect): under the presets `Hash128`, `Hash256` and `Hash512` the
reference buffer `0xC0` followed by 16, 32 or 64 digest bytes is long enough for its
layout, yet `DecodeSlice` fails: the copy loop writes `content[8]` of the eight-byte
`Content`, which is out of range. -/
theorem C5_presets_panic_on_reference :
    ((0 : Int) ≤ Hash128.Length
        ∧ at64 (0xC0 :: List.replicate 16 0) 0 = some 0xC0
        ∧ 0xC0 &&& TypeMask = TypeReference
        ∧ 1 + (0xC0 &&& ReferencePrefixMask) >>> 3 + Hash128.Length.toNat
            ≤ ((0xC0 : Byte) :: List.replicate 16 0).length
        ∧ DecodeSlice Hash128 (0xC0 :: List.replicate 16 0) = none)
      ∧ (1 + (0xC0 &&& ReferencePrefixMask) >>> 3 + Hash256.Length.toNat
            ≤ ((0xC0 : Byte) :: List.replicate 32 0).length
        ∧ DecodeSlice Hash256 (0xC0 :: List.replicate 32 0) = none)
      ∧ (1 + (0xC0 &&& ReferencePrefixMask) >>> 3 + Hash512.Length.toNat
            ≤ ((0xC0 : Byte) :: List.replicate 64 0).length
        ∧ DecodeSlice Hash512 (0xC0 :: List.replicate 64 0) = none) := by
  decide

/-- C6 (counterexample): the one-byte buffer `0xBF` declares a layout of 65 bytes,
yet `DecodeSlice` returns length 64 and a zero content instead of failing. -/
theorem C6_counterexample :
    (0 : Int) ≤ (⟨8⟩ : Codec).Length
      ∧ Truncated ⟨8⟩ [0xBF]
      ∧ DecodeSlice ⟨8⟩ [0xBF] = some (64, zeroContent) :=
  ⟨by decide, Or.inr ⟨0xBF, by decide, by decide⟩, by decide⟩

/-- C6 (amended): for every codec with `Length >= 0` and every buffer `b` that is
empty or shorter than the layout its lead byte declares, where for type bits 10
the declared content `(b[0] & 0x3F) + 1` is at most 7 bytes, `DecodeSlice` fails. -/
theorem C6_truncated_rejected (c : Codec) (b : List Byte) (_hW0 : 0 ≤ c.Length)
    (ht : Truncated c b)
    (hsmall : ∀ h, at64 b 0 = some h → h &&& TypeMask = TypeInlineMultibyte →
      (h &&& InlineMask) + 1 ≤ 7) :
    DecodeSlice c b = none :=
  DecodeSlice_truncated c b ht hsmall

/-- C6 (witness): `0xC8 0x00` followed by only three of the eight digest bytes. -/
theorem C6_truncated_witness :
    Truncated ⟨8⟩ [0xC8, 0, 1, 2, 3] ∧ DecodeSlice ⟨8⟩ [0xC8, 0, 1, 2, 3] = none :=
  ⟨Or.inr ⟨0xC8, by decide, by decide⟩,
    C6_truncated_rejected ⟨8⟩ [0xC8, 0, 1, 2, 3] (by decide)
      (Or.inr ⟨0xC8, by decide, by decide⟩)
      (fun h h0 ht => by
        simp only [at64, List.getElem?_cons_zero, Option.map_some', Option.some.injEq] at h0
        subst h0
        exact absurd ht (by decide))⟩

/-- C7 (code defect): on the inline multibyte value `0x80 0x00` `DecodeSlice`
returns length 1 while `Value.Len` returns 0 (it omits the `+ 1`); on the
reference value `0xC8 0x00` with eight digest bytes they return 73 and 321. -/
theorem C7_Len_disagrees_with_DecodeSlice :
    DecodeSlice ⟨8⟩ [0x80, 0x00] = some (1, zeroContent)
      ∧ Len [0x80, 0x00] = some 0
      ∧ DecodeSlice ⟨8⟩ (0xC8 :: 0x00 :: List.replicate 8 0) = some (73, zeroContent)
      ∧ Len (0xC8 :: 0x00 :: List.replicate 8 0) = some 321 := by
  decide

/-- C8 (code defect): `Value.Len` does not reproduce the length table of doc.go:
it returns 65 for `0xC1` (table: 66), 71 for `0xC7` (72), 321 for `0xC8 0x00` (73),
321 for `0xC9 0x00` (329) and 65602 for `0xD0 0x00 0x00` (2121). -/
theorem C8_Len_misses_length_table :
    Len [0xC1] = some 65
      ∧ Len [0xC7] = some 71
      ∧ Len [0xC8, 0x00] = some 321
      ∧ Len [0xC9, 0x00] = some 321
      ∧ Len [0xD0, 0x00, 0x00] = some 65602 := by
  decide

/-- C9 (code defect): with `Codec{8}` the values `0xC0` followed by eight zero bytes
and `0x40` are each exactly as long as their declared layout and decode to the
lengths 0 and 1, yet the first does not sort before the second; likewise two
count-7 values decode to `offset7 + 256` and `offset7 + 512` against their byte
order. -/
theorem C9_sort_order_broken :
    DecodeSlice ⟨8⟩ (0xC0 :: List.replicate 8 0) = some (0, zeroContent)
      ∧ DecodeSlice ⟨8⟩ [0x40] = some (1, zeroContent)
      ∧ (((0xC0 : Byte) :: List.replicate 8 0).length : Int) = layoutSize ⟨8⟩ 0xC0
      ∧ (([0x40] : List Byte).length : Int) = layoutSize ⟨8⟩ 0x40
      ∧ lexLt (0xC0 :: List.replicate 8 0) [0x40] = false
      ∧ DecodeSlice ⟨0⟩ [0xF8, 0, 0, 0, 0, 1, 0, 0] = some (offset7 + 256, zeroContent)
      ∧ DecodeSlice ⟨0⟩ [0xF8, 0, 0, 0, 0, 0, 2, 0] = some (offset7 + 512, zeroContent)
      ∧ lexLt [0xF8, 0, 0, 0, 0, 1, 0, 0] [0xF8, 0, 0, 0, 0, 0, 2, 0] = false := by
  decide

/-- C10 (counterexample): the eight bytes `0xFF ... 0xFF` decode with `Codec{0}` to
578721382687901768, which exceeds `MaxLength`. -/
theorem C10_counterexample :
    DecodeSlice ⟨0⟩ (List.replicate 8 0xFF) = some (578721382687901768, zeroContent)
      ∧ MaxLength < 578721382687901768 := by
  decide

/-- C10 (amended): `MaxLength` equals `2^59 - 1` and, for every codec and every
buffer on which `DecodeSlice` succeeds, the returned length is at most
`MaxLength + offset7`, and at most `MaxLength` when the lead byte is below `0xF8`
(any lead byte other than a reference with prefix count 7). -/
theorem C10_length_bound (c : Codec) (b : List Byte) (l : Nat) (content : Content)
    (hd : DecodeSlice c b = some (l, content)) :
    MaxLength = 2 ^ 59 - 1 ∧ l ≤ MaxLength + offset7
      ∧ ∀ h, at64 b 0 = some h → h < 0xF8 → l ≤ MaxLength :=
  ⟨by norm_num [MaxLength], DecodeSlice_length_le c b l content hd⟩

/-- C10 (witness): `0xF7` with six prefix bytes `0xFF` decodes to `offset7 - 1`. -/
theorem C10_length_bound_witness :
    DecodeSlice ⟨0⟩ (0xF7 :: List.replicate 6 0xFF) = some (offset7 - 1, zeroContent)
      ∧ (MaxLength = 2 ^ 59 - 1 ∧ offset7 - 1 ≤ MaxLength + offset7
        ∧ ∀ h, at64 (0xF7 :: List.replicate 6 0xFF) 0 = some h → h < 0xF8 →
            offset7 - 1 ≤ MaxLength) :=
  ⟨by decide, C10_length_bound ⟨0⟩ (0xF7 :: List.replicate 6 0xFF) (offset7 - 1) zeroContent
    (by decide)⟩

/-- C11: for every codec and every buffer `b` with `b[0] & 0xC0 = 0x80` on which
`DecodeSlice` succeeds, the returned length equals `(b[0] & 0x3F) + 1`, the byte
addition does not overflow, and the length lies in 1..64. -/
theorem C11_inline_multibyte_length (c : Codec) (b : List Byte) (h l : Nat)
    (content : Content) (h0 : at64 b 0 = some h)
    (ht : h &&& TypeMask = TypeInlineMultibyte)
    (hd : DecodeSlice c b = some (l, content)) :
    l = (h &&& InlineMask) + 1 ∧ u8 ((h &&& InlineMask) + 1) = (h &&& InlineMask) + 1
      ∧ 1 ≤ l ∧ l ≤ 64 := by
  rcases b with _ | ⟨hb, t⟩
  · cases hd
  · simp only [at64, List.getElem?_cons_zero, Option.map_some', Option.some.injEq] at h0
    subst h0
    obtain ⟨hl, _⟩ := DecodeSlice_inline_inv c hb t ht l content hd
    have hm : hb.val &&& InlineMask ≤ InlineMask := Nat.and_le_right
    simp only [InlineMask] at hm
    exact ⟨hl, u8_inline _, by omega, by simp only [InlineMask] at hl; omega⟩

/-- C11 (witness): lead byte `0xBF` alone decodes to length 64. -/
theorem C11_inline_multibyte_length_witness :
    (64 : Nat) = (0xBF &&& InlineMask) + 1
      ∧ u8 ((0xBF &&& InlineMask) + 1) = (0xBF &&& InlineMask) + 1
      ∧ 1 ≤ 64 ∧ 64 ≤ 64 :=
  C11_inline_multibyte_length ⟨8⟩ [0xBF] 0xBF 64 zeroContent (by decide) (by decide)
    (by decide)

/-- C12: for every codec and every non-empty buffer `b` with `b[0] & 0xC0 = 0x40`,
`DecodeSlice` returns length 1 and a content whose first byte is `b[0] & 0x3F` and
whose remaining seven bytes are zero, whatever bytes follow the lead byte. -/
theorem C12_inline_byte (c : Codec) (b : List Byte) (h : Nat) (h0 : at64 b 0 = some h)
    (ht : h &&& TypeMask = TypeInlineByte) :
    ∃ v : Byte, v.val = h &&& InlineMask
      ∧ DecodeSlice c b = some (1, v :: List.replicate 7 0) := by
  rcases b with _ | ⟨hb, t⟩
  · simp [at64] at h0
  · simp only [at64, List.getElem?_cons_zero, Option.map_some', Option.some.injEq] at h0
    subst h0
    refine ⟨Fin.ofNat (hb.val &&& InlineMask), ?_, ?_⟩
    · have hm : hb.val &&& InlineMask ≤ InlineMask := Nat.and_le_right
      simp only [InlineMask] at hm ⊢
      show (hb.val &&& 0x3F) % 256 = _
      omega
    · rw [DecodeSlice_inlineByte c hb t ht]
      rfl

/-- C12 (witness): the single byte `0x45` decodes to length 1, value 5. -/
theorem C12_inline_byte_witness :
    ∃ v : Byte, v.val = 0x45 &&& InlineMask
      ∧ DecodeSlice ⟨8⟩ [0x45] = some (1, v :: List.replicate 7 0) :=
  C12_inline_byte ⟨8⟩ [0x45] 0x45 (by decide) (by decide)

/-- C13: for any two codecs and every buffer `b` on which `DecodeSlice` succeeds
under both, the two returned lengths are equal, and when the type bits of `b` are
not 11 the two returned contents are equal as well. -/
theorem C13_width_independent_length (c1 c2 : Codec) (b : List Byte) (l1 l2 : Nat)
    (content1 content2 : Content) (h1 : DecodeSlice c1 b = some (l1, content1))
    (h2 : DecodeSlice c2 b = some (l2, content2)) :
    l1 = l2 ∧ ∀ h, at64 b 0 = some h → h &&& TypeMask ≠ TypeReference →
      content1 = content2 := by
  rcases b with _ | ⟨hb, t⟩
  · cases h1
  · by_cases ht : hb.val &&& TypeMask = TypeReference
    · have e1 := DecodeSlice_reference_length c1 hb t ht l1 content1 h1
      have e2 := DecodeSlice_reference_length c2 hb t ht l2 content2 h2
      rw [e1, Option.some.injEq] at e2
      refine ⟨e2, ?_⟩
      intro h h0 hne
      simp only [at64, List.getElem?_cons_zero, Option.map_some', Option.some.injEq] at h0
      subst h0
      exact absurd ht hne
    · rw [DecodeSlice_nonreference c1 c2 hb t ht, h2, Option.some.injEq, Prod.mk.injEq] at h1
      exact ⟨h1.1.symm, fun _ _ _ => h1.2.symm⟩

/-- C13 (witness): `0xC8 0x07` followed by eight bytes decodes to length 80 under
`Codec{8}` and under `Codec{2}`. -/
theorem C13_width_independent_length_witness :
    DecodeSlice ⟨8⟩ [0xC8, 7, 1, 2, 3, 4, 5, 6, 7, 8] = some (80, [1, 2, 3, 4, 5, 6, 7, 8])
      ∧ DecodeSlice ⟨2⟩ [0xC8, 7, 1, 2, 3, 4, 5, 6, 7, 8]
          = some (80, [1, 2, 0, 0, 0, 0, 0, 0])
      ∧ ((80 : Nat) = 80 ∧ ∀ h, at64 [0xC8, 7, 1, 2, 3, 4, 5, 6, 7, 8] 0 = some h →
          h &&& TypeMask ≠ TypeReference →
          ([1, 2, 3, 4, 5, 6, 7, 8] : Content) = [1, 2, 0, 0, 0, 0, 0, 0]) :=
  ⟨by decide, by decide,
    C13_width_independent_length ⟨8⟩ ⟨2⟩ [0xC8, 7, 1, 2, 3, 4, 5, 6, 7, 8] 80 80
      [1, 2, 3, 4, 5, 6, 7, 8] [1, 2, 0, 0, 0, 0, 0, 0] (by decide) (by decide)⟩

/-- C14: for every codec, every buffer `b` on which `DecodeSlice` succeeds and every
byte sequence `s`, `DecodeSlice` on `b` followed by `s` also succeeds and returns
the same length and content as on `b`. -/
theorem C14_self_terminating (c : Codec) (b s : List Byte) (l : Nat) (content : Content)
    (hd : DecodeSlice c b = some (l, content)) :
    DecodeSlice c (b ++ s) = some (l, content) :=
  DecodeSlice_append c b s l content hd

/-- C14 (witness): `0xC8 0x00` with a four-byte digest, followed by `0xFF 0xFF`. -/
theorem C14_self_terminating_witness :
    DecodeSlice ⟨4⟩ ([0xC8, 0, 9, 8, 7, 6] ++ [0xFF, 0xFF])
      = some (73, [9, 8, 7, 6, 0, 0, 0, 0]) :=
  C14_self_terminating ⟨4⟩ [0xC8, 0, 9, 8, 7, 6] [0xFF, 0xFF] 73 [9, 8, 7, 6, 0, 0, 0, 0]
    (by decide)

/-- C15 (counterexample): for `c = 1` the constant `offset1` is 73, while the formula
`65 + (256^1 + ... + 256^(c-1))` gives 65. -/
theorem C15_counterexample :
    offset 1 = 73 ∧ 65 + Finset.sum (Finset.Ico 1 1) (fun k => 256 ^ k) = 65
      ∧ offset 1 ≠ 65 + Finset.sum (Finset.Ico 1 1) (fun k => 256 ^ k) := by
  decide

/-- C15 (amended): for every `c` in 1..7 the offset constant for `c` equals
`65 + 8 * (256^0 + ... + 256^(c-1))`. -/
theorem C15_offset_table (c : Nat) (h1 : 1 ≤ c) (h7 : c ≤ 7) :
    offset c = 65 + 8 * Finset.sum (Finset.range c) (fun k => 256 ^ k) := by
  interval_cases c <;> simp [offset, offset1, offset2, offset3, offset4, offset5, offset6,
    offset7, Finset.sum_range_succ]

/-- C15 (witness): `offset2 = 65 + 8 * (1 + 256) = 2121`. -/
theorem C15_offset_table_witness :
    offset 2 = 65 + 8 * Finset.sum (Finset.range 2) (fun k => 256 ^ k) :=
  C15_offset_table 2 (by decide) (by decide)

/-- C16 (code defect): `Value.Inline` returns false on the inline values `0x00`
(Nil), `0x45` (InlineByte) and `0x80 0xC8` (InlineMultibyte), where its own doc
comment and the claim say true. -/
theorem C16_Inline_always_false :
    Inline [0x00] = false ∧ Inline [0x45] = false ∧ Inline [0x80, 0xC8] = false
      ∧ (0x00 &&& TypeMask = TypeNil ∧ 0x45 &&& TypeMask = TypeInlineByte
        ∧ 0x80 &&& TypeMask = TypeInlineMultibyte) := by
  decide

/-- C17: for every codec with `0 <= Length <= 8` and any two reference-tier buffers
`b` and `b'` on which `DecodeSlice` succeeds, with prefix counts `c < c'`, the length
decoded from `b` is strictly less than the length decoded from `b'`. -/
theorem C17_counts_do_not_overlap (c : Codec) (b b' : List Byte) (h h' l l' : Nat)
    (content content' : Content) (_hW0 : 0 ≤ c.Length) (_hW8 : c.Length ≤ 8)
    (h0 : at64 b 0 = some h) (h0' : at64 b' 0 = some h')
    (ht : h &&& TypeMask = TypeReference) (ht' : h' &&& TypeMask = TypeReference)
    (hd : DecodeSlice c b = some (l, content)) (hd' : DecodeSlice c b' = some (l', content'))
    (hc : (h &&& ReferencePrefixMask) >>> 3 < (h' &&& ReferencePrefixMask) >>> 3) :
    l < l' :=
  DecodeSlice_count_lt c b b' h h' l l' content content' h0 h0' ht ht' hd hd' hc

/-- C17 (witness): `0xC7` (count 0, decoded as 7) against `0xC8 0x00` (count 1,
decoded as 73), both with `Codec{0}`. -/
theorem C17_counts_do_not_overlap_witness :
    DecodeSlice ⟨0⟩ [0xC7] = some (7, zeroContent)
      ∧ DecodeSlice ⟨0⟩ [0xC8, 0x00] = some (73, zeroContent)
      ∧ (7 : Nat) < 73 :=
  ⟨by decide, by decide,
    C17_counts_do_not_overlap ⟨0⟩ [0xC7] [0xC8, 0x00] 0xC7 0xC8 7 73 zeroContent zeroContent
      (by decide) (by decide) (by decide) (by decide) (by decide) (by decide) (by decide)
      (by decide) (by decide)⟩

/-- C18: for every codec with `Length >= 0` and every reference-tier buffer `b` with
count `c` and `len(b) >= 1 + c + Length`, `DecodeSlice` succeeds if and only if
`Length <= 8`; when it succeeds, `content[i] = b[1 + c + i]` for every `i < Length` and
`content[i] = 0` for `Length <= i < 8`; and when `Length > 8` `DecodeSlice` fails on
every reference-tier buffer, however long. -/
theorem C18_reference_succeeds_iff_width_le_8 (c : Codec) (b : List Byte) (h : Nat)
    (hW0 : 0 ≤ c.Length) (h0 : at64 b 0 = some h) (ht : h &&& TypeMask = TypeReference)
    (hlen : 1 + (h &&& ReferencePrefixMask) >>> 3 + c.Length.toNat ≤ b.length) :
    ((∃ l content, DecodeSlice c b = some (l, content)) ↔ c.Length ≤ 8)
      ∧ (∀ l content, DecodeSlice c b = some (l, content) →
          (∀ i, i < c.Length.toNat →
              content[i]? = b[1 + (h &&& ReferencePrefixMask) >>> 3 + i]?)
            ∧ (∀ i, c.Length.toNat ≤ i → i < 8 → content[i]? = some 0))
      ∧ (8 < c.Length → ∀ (b' : List Byte) (h' : Nat), at64 b' 0 = some h' →
          h' &&& TypeMask = TypeReference → DecodeSlice c b' = none) := by
  have wide : 8 < c.Length → ∀ (b' : List Byte) (h' : Nat), at64 b' 0 = some h' →
      h' &&& TypeMask = TypeReference → DecodeSlice c b' = none := by
    intro hW b' h' hb' ht'
    rcases b' with _ | ⟨x, t⟩
    · rfl
    · simp only [at64, List.getElem?_cons_zero, Option.map_some', Option.some.injEq] at hb'
      subst hb'
      exact DecodeSlice_reference_wide c x t ht' hW
  refine ⟨⟨?_, ?_⟩, ?_, wide⟩
  · rintro ⟨l, content, hd⟩
    by_contra hW
    rw [wide (by omega) b h h0 ht] at hd
    cases hd
  · intro hW8
    obtain ⟨l, hl⟩ := DecodeSlice_reference_content c b h hW0 hW8 h0 ht hlen
    exact ⟨l, _, hl⟩
  · intro l content hd
    have hW8 : c.Length ≤ 8 := by
      by_contra hW
      rw [wide (by omega) b h h0 ht] at hd
      cases hd
    obtain ⟨l0, hl⟩ := DecodeSlice_reference_content c b h hW0 hW8 h0 ht hlen
    rw [hl, Option.some.injEq, Prod.mk.injEq] at hd
    obtain ⟨p1, p2⟩ := padContent_take_getElem?
      (b.drop (1 + (h &&& ReferencePrefixMask) >>> 3)) c.Length.toNat
      (by rw [List.length_drop]; omega)
    rw [← hd.2]
    refine ⟨fun i hi => ?_, p2⟩
    rw [p1 i hi, List.getElem?_drop]

/-- C18 (witness): `Codec{2}` on `0xC8 0x00` followed by the digest `9 8`. -/
theorem C18_reference_succeeds_iff_width_le_8_witness :
    ((∃ l content, DecodeSlice ⟨2⟩ [0xC8, 0, 9, 8] = some (l, content))
        ↔ (⟨2⟩ : Codec).Length ≤ 8)
      ∧ (∀ l content, DecodeSlice ⟨2⟩ [0xC8, 0, 9, 8] = some (l, content) →
          (∀ i, i < (⟨2⟩ : Codec).Length.toNat →
              content[i]? = ([0xC8, 0, 9, 8] : List Byte)[1
                + (0xC8 &&& ReferencePrefixMask) >>> 3 + i]?)
            ∧ (∀ i, (⟨2⟩ : Codec).Length.toNat ≤ i → i < 8 → content[i]? = some 0))
      ∧ (8 < (⟨2⟩ : Codec).Length → ∀ (b' : List Byte) (h' : Nat), at64 b' 0 = some h' →
          h' &&& TypeMask = TypeReference → DecodeSlice ⟨2⟩ b' = none) :=
  C18_reference_succeeds_iff_width_le_8 ⟨2⟩ [0xC8, 0, 9, 8] 0xC8 (by decide) (by decide)
    (by decide) (by decide)

/-- C19: for every codec and every buffer `b` with `b[0] & 0xC0 = 0x80` and
`n = (b[0] & 0x3F) + 1`: if `1 <= n <= 7` and `len(b) >= 1 + n` then `DecodeSlice`
returns length `n` with `content[i] = b[1 + i]` for `i < n` and `content[i] = 0` for
`n <= i < 8`; if `8 <= n <= 64` then `DecodeSlice` succeeds on any such buffer, even
one holding only the lead byte, and returns length `n` with an all-zero content. -/
theorem C19_inline_multibyte_copies (c : Codec) (b : List Byte) (h : Nat)
    (h0 : at64 b 0 = some h) (ht : h &&& TypeMask = TypeInlineMultibyte) :
    (1 ≤ (h &&& InlineMask) + 1 ∧ (h &&& InlineMask) + 1 ≤ 64)
      ∧ ((h &&& InlineMask) + 1 ≤ 7 → 1 + ((h &&& InlineMask) + 1) ≤ b.length →
          ∃ content, DecodeSlice c b = some ((h &&& InlineMask) + 1, content)
            ∧ (∀ i, i < (h &&& InlineMask) + 1 → content[i]? = b[1 + i]?)
            ∧ (∀ i, (h &&& InlineMask) + 1 ≤ i → i < 8 → content[i]? = some 0))
      ∧ (8 ≤ (h &&& InlineMask) + 1 →
          DecodeSlice c b = some ((h &&& InlineMask) + 1, zeroContent)) := by
  rcases b with _ | ⟨x, t⟩
  · simp [at64] at h0
  · simp only [at64, List.getElem?_cons_zero, Option.map_some', Option.some.injEq] at h0
    subst h0
    have hm : x.val &&& InlineMask ≤ InlineMask := Nat.and_le_right
    refine ⟨⟨by omega, by simp only [InlineMask] at hm ⊢; omega⟩, ?_, ?_⟩
    · intro h7 hlen
      simp only [List.length_cons] at hlen
      obtain ⟨p1, p2⟩ := padContent_take_getElem? t ((x.val &&& InlineMask) + 1) (by omega)
      refine ⟨padContent (t.take ((x.val &&& InlineMask) + 1)), ?_, fun i hi => ?_, p2⟩
      · rw [DecodeSlice_inline c x t ht, u8_inline,
          inlineMultibyteContent_eq _ x t (by omega) h7 (by omega)]
        rfl
      · rw [p1 i hi, Nat.add_comm 1 i, List.getElem?_cons_succ]
    · intro h8
      exact DecodeSlice_inline_large c x t ht h8

/-- C19 (witness): the lead byte `0xBF` alone (`n = 64`). -/
theorem C19_inline_multibyte_copies_witness :
    (1 ≤ (0xBF &&& InlineMask) + 1 ∧ (0xBF &&& InlineMask) + 1 ≤ 64)
      ∧ ((0xBF &&& InlineMask) + 1 ≤ 7 →
          1 + ((0xBF &&& InlineMask) + 1) ≤ ([0xBF] : List Byte).length →
          ∃ content, DecodeSlice ⟨8⟩ [0xBF] = some ((0xBF &&& InlineMask) + 1, content)
            ∧ (∀ i, i < (0xBF &&& InlineMask) + 1 →
                content[i]? = ([0xBF] : List Byte)[1 + i]?)
            ∧ (∀ i, (0xBF &&& InlineMask) + 1 ≤ i → i < 8 → content[i]? = some 0))
      ∧ (8 ≤ (0xBF &&& InlineMask) + 1 →
          DecodeSlice ⟨8⟩ [0xBF] = some ((0xBF &&& InlineMask) + 1, zeroContent)) :=
  C19_inline_multibyte_copies ⟨8⟩ [0xBF] 0xBF (by decide) (by decide)

/-- C20: for every codec with `0 <= Length <= 8`, restricted to reference-tier buffers
with prefix count in 1..6 on which `DecodeSlice` succeeds, the header (the first
`1 + count` bytes) of `b` is lexicographically less than the header of `b'` if and
only if the length decoded from `b` is less than the length decoded from `b'`; and the
lengths so decoded are exactly the integers from `offset1 = 73` to `offset7 - 1`, each
produced by exactly one header. -/
theorem C20_header_order_isomorphism (c : Codec) (hW0 : 0 ≤ c.Length) (hW8 : c.Length ≤ 8) :
    offset1 = 73 ∧ HeaderOrderIso c :=
  ⟨by decide, headerOrderIso c hW0 hW8⟩

/-- C20 (witness): the codec `Codec{8}`. -/
theorem C20_header_order_isomorphism_witness :
    (0 : Int) ≤ (⟨8⟩ : Codec).Length ∧ (⟨8⟩ : Codec).Length ≤ 8
      ∧ (offset1 = 73 ∧ HeaderOrderIso ⟨8⟩) :=
  ⟨by decide, by decide, C20_header_order_isomorphism ⟨8⟩ (by decide) (by decide)⟩

end Lpve
